import Mathlib

/-!
Shallow embedding of the cryptographic core of the `concrete` library
(GLWE/GGSW encryption over the discretized torus) and proofs of the
specification's claims about it.

Torus words of width `q` are modelled as integers reduced modulo `2^q`
(`wrap`); the Rust `wrapping_*` primitives become `wadd`, `wsub`, `wmul`,
`wneg`.  Polynomials are coefficient lists in order of increasing degree,
binary polynomials are boolean lists.  Rust functions that mutate a
`&mut` output are modelled as functions returning the new value; the
fail-fast dimension checks (`ck_dim_eq`) become the `RunResult.mismatch`
constructor, which carries the state of the mutated buffer at the moment
the check fires.  Sampling (gaussian noise, uniform masks, AES, OS
entropy) is modelled by passing the drawn values or the block cipher as
explicit parameters.
-/

namespace Concrete

/-! ## Definitions -/

/-- Reduction of an integer into the `q`-bit torus word domain `[0, 2^q)`;
this is the semantics shared by all Rust `wrapping_*` operations. -/
def wrap (q : Nat) (x : Int) : Int := x % ((2 : Int) ^ q)

/-- Rust `wrapping_add` on `q`-bit words. -/
def wadd (q : Nat) (a b : Int) : Int := wrap q (a + b)

/-- Rust `wrapping_sub` on `q`-bit words. -/
def wsub (q : Nat) (a b : Int) : Int := wrap q (a - b)

/-- Rust `wrapping_mul` on `q`-bit words. -/
def wmul (q : Nat) (a b : Int) : Int := wrap q (a * b)

/-- Rust `wrapping_neg` on `q`-bit words. -/
def wneg (q : Nat) (a : Int) : Int := wrap q (-a)

/-- Rust `Coef::cast_from(bool)`: a boolean cast to the torus word `0` or `1`. -/
def b2i (b : Bool) : Int := if b then 1 else 0

/-- A coefficient list whose entries are already reduced `q`-bit torus words. -/
def Reduced (q : Nat) (l : List Int) : Prop := ∀ x ∈ l, wrap q x = x

instance (q : Nat) (l : List Int) : Decidable (Reduced q l) :=
  inferInstanceAs (Decidable (∀ x ∈ l, wrap q x = x))

/-! ### Generic list helpers -/

/-- Writes `f` of the current value back at index `i`
(Rust `*element = f(*element)` through `get_element_mut`). -/
def setf (l : List Int) (i : Nat) (f : Int → Int) : List Int :=
  l.set i (f (l.getD i 0))

/-- Index pairs visited by the nested monomial loops
(`for lhsi in lhs { for rhsi in rhs { ... } }`). -/
def pairs (n m : Nat) : List (Nat × Nat) :=
  (List.range n).flatMap (fun i => (List.range m).map (fun j => (i, j)))

/-! ### Outcome of an operation guarded by dimension checks

A Rust operation that hits a `ck_dim_eq` panic stops and leaves the
`&mut` buffers in whatever state they had reached; `mismatch` carries
that state, `ok` carries the state after a normal return. -/

inductive RunResult (α : Type) where
  | ok : α → RunResult α
  | mismatch : α → RunResult α
deriving DecidableEq

/-- Whether the operation returned without a dimension panic. -/
def RunResult.isOk {α : Type} : RunResult α → Bool
  | .ok _ => true
  | .mismatch _ => false

/-! ### Negacyclic polynomial kernels (`math/polynomial/polynomial.rs`) -/

/-- Loop body of `update_with_wrapping_add_binary_mul`: one `(i, j)` monomial
pair; in range the product `poly[i] * bit` is wrapping-added at `i + j`,
out of range it is wrapping-subtracted at `(i + j) % (degree + 1)`. -/
def addBinMulStep (q deg : Nat) (poly : List Int) (bin : List Bool)
    (acc : List Int) (ij : Nat × Nat) : List Int :=
  let target := ij.1 + ij.2
  let term := poly.getD ij.1 0 * b2i (bin.getD ij.2 false)
  if target ≤ deg then setf acc target (fun e => wadd q e term)
  else setf acc (target % (deg + 1)) (fun e => wsub q e term)

/-- Loop body of `update_with_wrapping_sub_binary_mul`: the signs of
`addBinMulStep` inverted (in range subtract, folded add). -/
def subBinMulStep (q deg : Nat) (poly : List Int) (bin : List Bool)
    (acc : List Int) (ij : Nat × Nat) : List Int :=
  let target := ij.1 + ij.2
  let term := poly.getD ij.1 0 * b2i (bin.getD ij.2 false)
  if target ≤ deg then setf acc target (fun e => wsub q e term)
  else setf acc (target % (deg + 1)) (fun e => wadd q e term)

/-- The double loop of `update_with_wrapping_add_binary_mul` (after its
size check): folds `addBinMulStep` over all monomial index pairs. -/
def rawAddBinMul (q : Nat) (self poly : List Int) (bin : List Bool) :
    List Int :=
  (pairs poly.length bin.length).foldl
    (addBinMulStep q (poly.length - 1) poly bin) self

/-- The double loop of `update_with_wrapping_sub_binary_mul`. -/
def rawSubBinMul (q : Nat) (self poly : List Int) (bin : List Bool) :
    List Int :=
  (pairs poly.length bin.length).foldl
    (subBinMulStep q (poly.length - 1) poly bin) self

/-- Embedding of `Polynomial::update_with_wrapping_add_binary_mul`: after the
`ck_dim_eq` size check, accumulates the negacyclic product of an integer
polynomial and a binary polynomial into `self`. -/
def update_with_wrapping_add_binary_mul (q : Nat) (self poly : List Int)
    (bin : List Bool) : RunResult (List Int) :=
  if self.length = poly.length ∧ self.length = bin.length then
    RunResult.ok (rawAddBinMul q self poly bin)
  else RunResult.mismatch self

/-- Embedding of `Polynomial::update_with_wrapping_sub_binary_mul`. -/
def update_with_wrapping_sub_binary_mul (q : Nat) (self poly : List Int)
    (bin : List Bool) : RunResult (List Int) :=
  if self.length = poly.length ∧ self.length = bin.length then
    RunResult.ok (rawSubBinMul q self poly bin)
  else RunResult.mismatch self

/-- Loop body of `fill_with_wrapping_mul`: the product is a `wrapping_mul`,
then wrapping-added in range or wrapping-subtracted at the folded index. -/
def mulStep (q deg : Nat) (lhs rhs : List Int)
    (acc : List Int) (ij : Nat × Nat) : List Int :=
  let target := ij.1 + ij.2
  let new := wmul q (lhs.getD ij.1 0) (rhs.getD ij.2 0)
  if target ≤ deg then setf acc target (fun e => wadd q e new)
  else setf acc (target % (deg + 1)) (fun e => wsub q e new)

/-- Embedding of `Polynomial::fill_with_wrapping_mul`: size check, zero the
output, then the schoolbook negacyclic double loop. -/
def fill_with_wrapping_mul (q : Nat) (out lhs rhs : List Int) :
    RunResult (List Int) :=
  if out.length = lhs.length ∧ out.length = rhs.length then
    RunResult.ok
      ((pairs lhs.length rhs.length).foldl
        (mulStep q (lhs.length - 1) lhs rhs) (List.replicate out.length 0))
  else RunResult.mismatch out

/-- Embedding of `Polynomial::fill_with_wrapping_binary_mul`: size check, zero
the output, then delegate to `update_with_wrapping_add_binary_mul`. -/
def fill_with_wrapping_binary_mul (q : Nat) (out poly : List Int)
    (bin : List Bool) : RunResult (List Int) :=
  if out.length = poly.length ∧ out.length = bin.length then
    update_with_wrapping_add_binary_mul q (List.replicate out.length 0) poly bin
  else RunResult.mismatch out

/-- Embedding of `Polynomial::update_with_wrapping_add_binary_multisum`: folds
`update_with_wrapping_add_binary_mul` over the zip of the two polynomial
lists (the zip silently truncates to the shorter list); a panic inside one
step stops the iteration. -/
def update_with_wrapping_add_binary_multisum (q : Nat) (self : List Int)
    (coefList : List (List Int)) (binList : List (List Bool)) :
    RunResult (List Int) :=
  (coefList.zip binList).foldl
    (fun acc pb =>
      match acc with
      | RunResult.ok s => update_with_wrapping_add_binary_mul q s pb.1 pb.2
      | RunResult.mismatch s => RunResult.mismatch s)
    (RunResult.ok self)

/-- Embedding of `Polynomial::update_with_wrapping_sub_binary_multisum`. -/
def update_with_wrapping_sub_binary_multisum (q : Nat) (self : List Int)
    (coefList : List (List Int)) (binList : List (List Bool)) :
    RunResult (List Int) :=
  (coefList.zip binList).foldl
    (fun acc pb =>
      match acc with
      | RunResult.ok s => update_with_wrapping_sub_binary_mul q s pb.1 pb.2
      | RunResult.mismatch s => RunResult.mismatch s)
    (RunResult.ok self)

/-- Embedding of `Polynomial::update_with_wrapping_add`: size check, then a
coefficient-wise wrapping add. -/
def update_with_wrapping_add (q : Nat) (self other : List Int) :
    RunResult (List Int) :=
  if self.length = other.length then
    RunResult.ok (List.zipWith (fun a b => wadd q a b) self other)
  else RunResult.mismatch self

/-- Embedding of `Polynomial::update_with_wrapping_sub`. -/
def update_with_wrapping_sub (q : Nat) (self other : List Int) :
    RunResult (List Int) :=
  if self.length = other.length then
    RunResult.ok (List.zipWith (fun a b => wsub q a b) self other)
  else RunResult.mismatch self

/-- Rust `slice::rotate_right(r)` for `r < len`. -/
def rot_right (l : List Int) (r : Nat) : List Int :=
  l.drop (l.length - r) ++ l.take (l.length - r)

/-- Rust `slice::rotate_left(r)` for `r < len`. -/
def rot_left (l : List Int) (r : Nat) : List Int :=
  l.drop r ++ l.take r

/-- Wrapping-negate the first `r` coefficients
(`iter_mut().take(r).for_each(wrapping_neg)`). -/
def neg_first (q r : Nat) (l : List Int) : List Int :=
  (l.take r).map (wneg q) ++ l.drop r

/-- Wrapping-negate the last `r` coefficients
(`iter_mut().rev().take(r).for_each(wrapping_neg)`). -/
def neg_last (q r : Nat) (l : List Int) : List Int :=
  l.take (l.length - r) ++ (l.drop (l.length - r)).map (wneg q)

/-- Embedding of `Polynomial::update_with_wrapping_monic_monomial_mul`:
negate everything when `degree / N` is odd, rotate right by `degree % N`,
negate the first `degree % N` coefficients. -/
def update_with_wrapping_monic_monomial_mul (q : Nat) (self : List Int)
    (monomial_degree : Nat) : List Int :=
  let full_cycles_count := monomial_degree / self.length
  let self1 := if full_cycles_count % 2 ≠ 0 then self.map (wneg q) else self
  let remaining_degree := monomial_degree % self.length
  neg_first q remaining_degree (rot_right self1 remaining_degree)

/-- Embedding of `Polynomial::update_with_wrapping_unit_monomial_div`:
negate everything when `degree / N` is odd, rotate left by `degree % N`,
negate the last `degree % N` coefficients. -/
def update_with_wrapping_unit_monomial_div (q : Nat) (self : List Int)
    (monomial_degree : Nat) : List Int :=
  let full_cycles_count := monomial_degree / self.length
  let self1 := if full_cycles_count % 2 ≠ 0 then self.map (wneg q) else self
  let remaining_degree := monomial_degree % self.length
  neg_last q remaining_degree (rot_left self1 remaining_degree)

/-! ### Specification-side restatement of the schoolbook product (for C3) -/

/-- Loop body of the schoolbook product as the specification words it:
for a pair `(i, j)` with `d = i + j`, wrapping-add the wrapping product to
`out[d]` when `d < N`, otherwise wrapping-subtract it from `out[d - N]`. -/
def mulStepSpec (q N : Nat) (lhs rhs : List Int)
    (acc : List Int) (ij : Nat × Nat) : List Int :=
  let d := ij.1 + ij.2
  let t := wmul q (lhs.getD ij.1 0) (rhs.getD ij.2 0)
  if d < N then setf acc d (fun e => wadd q e t)
  else setf acc (d - N) (fun e => wsub q e t)

/-- The schoolbook product as the specification words it: size equality on
all three operands, zero the output, then fold the spec-side loop body. -/
def fill_with_wrapping_mul_spec (q : Nat) (out lhs rhs : List Int) :
    RunResult (List Int) :=
  if out.length = lhs.length ∧ out.length = rhs.length then
    RunResult.ok
      ((pairs lhs.length rhs.length).foldl
        (mulStepSpec q lhs.length lhs rhs) (List.replicate out.length 0))
  else RunResult.mismatch out

/-! ### AES-CTR software CSPRNG (`concrete-csprng/src/software.rs`)

The AES-128 block cipher lives in the external `aes_soft` crate; it is
modelled as a parameter `AES : key → block → 16 bytes`.  The OS entropy
pool is an oracle `entropy : Nat → Nat` consumed once per draw. -/

structure RandomGenerator where
  key : Nat
  state : Nat
  generated : List Nat
  generated_idx : Nat
deriving DecidableEq

/-- Embedding of `RandomGenerator::new`: absent seeds are replaced by an
entropy draw (the Rust `unwrap_or` evaluates its argument eagerly, so a
draw happens either way — first for the state, then for the key); the
buffer starts zeroed and exhausted (`generated_idx = 127`). -/
def RandomGenerator.new (key state : Option Nat) (entropy : Nat → Nat) :
    RandomGenerator :=
  { key := key.getD (entropy 1)
    state := state.getD (entropy 0)
    generated := List.replicate 128 0
    generated_idx := 127 }

/-- Embedding of `aes_encrypt_many`: the concatenation of the eight
16-byte encrypted blocks. -/
def aes_encrypt_many (AES : Nat → Nat → List Nat) (key : Nat)
    (m1 m2 m3 m4 m5 m6 m7 m8 : Nat) : List Nat :=
  AES key m1 ++ AES key m2 ++ AES key m3 ++ AES key m4 ++
    AES key m5 ++ AES key m6 ++ AES key m7 ++ AES key m8

/-- Embedding of `RandomGenerator::generate_next` (release semantics: every
`u128` addition reduced modulo `2^128`).  When the buffer still holds
unreturned bytes the index advances and that byte is returned; otherwise
`update_state` first advances the counter by 8 (wrapping), then the eight
blocks of the new counter values are encrypted into the buffer and its
first byte is returned. -/
def generate_next (AES : Nat → Nat → List Nat) (g : RandomGenerator) :
    Nat × RandomGenerator :=
  if g.generated_idx < 127 then
    (g.generated.getD (g.generated_idx + 1) 0,
      { g with generated_idx := g.generated_idx + 1 })
  else
    let s := (g.state + 8) % 2 ^ 128
    let generated := aes_encrypt_many AES g.key s ((s + 1) % 2 ^ 128)
      ((s + 2) % 2 ^ 128) ((s + 3) % 2 ^ 128) ((s + 4) % 2 ^ 128)
      ((s + 5) % 2 ^ 128) ((s + 6) % 2 ^ 128) ((s + 7) % 2 ^ 128)
    (generated.getD 0 0,
      { key := g.key, state := s, generated := generated, generated_idx := 0 })

/-- The refill behavior exactly as claim C4 words it: with counter `C`,
first compute the eight AES encryptions of `C, C+1, ..., C+7` and
concatenate them into the buffer, then advance `C` by 8, and return the
first byte of the new buffer. -/
def generate_next_claimed (AES : Nat → Nat → List Nat) (g : RandomGenerator) :
    Nat × RandomGenerator :=
  if g.generated_idx < 127 then
    (g.generated.getD (g.generated_idx + 1) 0,
      { g with generated_idx := g.generated_idx + 1 })
  else
    let generated := aes_encrypt_many AES g.key g.state
      ((g.state + 1) % 2 ^ 128) ((g.state + 2) % 2 ^ 128)
      ((g.state + 3) % 2 ^ 128) ((g.state + 4) % 2 ^ 128)
      ((g.state + 5) % 2 ^ 128) ((g.state + 6) % 2 ^ 128)
      ((g.state + 7) % 2 ^ 128)
    (generated.getD 0 0,
      { key := g.key, state := (g.state + 8) % 2 ^ 128,
        generated := generated, generated_idx := 0 })

/-- The refill behavior with the order corrected: the counter is advanced
by 8 first, and the buffer is the concatenation of the AES encryptions of
the advanced counter values `C+8, C+9, ..., C+15`. -/
def generate_next_amended (AES : Nat → Nat → List Nat) (g : RandomGenerator) :
    Nat × RandomGenerator :=
  if g.generated_idx < 127 then
    (g.generated.getD (g.generated_idx + 1) 0,
      { g with generated_idx := g.generated_idx + 1 })
  else
    let buf :=
      ((List.range 8).map (fun i => AES g.key ((g.state + 8 + i) % 2 ^ 128))).flatten
    (buf.getD 0 0,
      { key := g.key, state := (g.state + 8) % 2 ^ 128,
        generated := buf, generated_idx := 0 })

/-- A concrete block function used to separate the two refill orders: it
exposes the block-counter input in every output byte. -/
def ctrProbe : Nat → Nat → List Nat := fun _ m => List.replicate 16 (m % 256)

/-- Rust checked `u128` addition: the plain `+` operator panics when the
mathematical sum does not fit in 128 bits (overflow checks enabled). -/
def checked_add_u128 (a b : Nat) : Option Nat :=
  if a + b < 2 ^ 128 then some (a + b) else none

/-- The eight block-counter values computed by a `generate_next` refill,
with the wrapping `update_state` advance followed by the seven per-block
increments `state + 1 ... state + 7` written with the checked addition the
source actually uses (plain `+`, not `wrapping_add`). -/
def refill_messages_checked (state : Nat) : Option (List Nat) := do
  let s := (state + 8) % 2 ^ 128
  let m2 ← checked_add_u128 s 1
  let m3 ← checked_add_u128 s 2
  let m4 ← checked_add_u128 s 3
  let m5 ← checked_add_u128 s 4
  let m6 ← checked_add_u128 s 5
  let m7 ← checked_add_u128 s 6
  let m8 ← checked_add_u128 s 7
  pure [s, m2, m3, m4, m5, m6, m7, m8]

/-- Rust checked `u32` multiplication: the plain `*` operator panics when
the product does not fit in 32 bits (overflow checks enabled). -/
def checked_mul_u32 (a b : Nat) : Option Nat :=
  if a * b < 2 ^ 32 then some (a * b) else none

/-- The GGSW diagonal value `mu * (ONE << (BITS - B * (level + 1)))` as
`encrypt_constant_ggsw` writes it for `u32` words, with the multiplication
checked (the source uses plain `*`, not `wrapping_mul`). -/
def ggsw_delta_checked_u32 (baseLog level : Nat) (mu : Nat) : Option Nat :=
  checked_mul_u32 mu (2 ^ (32 - baseLog * (level + 1)))

/-- The first `n` bytes produced by iterating `generate_next`. -/
def genBytes (AES : Nat → Nat → List Nat) : Nat → RandomGenerator → List Nat
  | 0, _ => []
  | n + 1, g =>
    let r := generate_next AES g
    r.1 :: genBytes AES n r.2

/-! ### GLWE ciphertexts and secret-key operations (`crypto/secret/glwe.rs`)

A secret key is a list of binary polynomials; a ciphertext holds the mask
polynomials followed by the body.  The gaussian and uniform samplers are
modelled by passing the drawn values (`noiseE`, `maskA`) as parameters:
`fill_with_random_gaussian` overwrites the whole body with the noise
samples and `fill_with_random_uniform` overwrites the whole mask. -/

structure Glwe where
  mask : List (List Int)
  body : List Int
deriving DecidableEq

/-- Embedding of `GlweSecretKey::encrypt_glwe`: the body is filled with the
gaussian samples `noiseE`, the masks with the uniform samples `maskA`, then
the binary multisum of masks and key polynomials is added into the body,
and finally the encoded plaintext is added (whose size check is therefore
the last step).  There is no check of the key width against the mask
count. -/
def encrypt_glwe (q : Nat) (key : List (List Bool)) (encoded : List Int)
    (noiseE : List Int) (maskA : List (List Int)) : RunResult Glwe :=
  match update_with_wrapping_add_binary_multisum q noiseE maskA key with
  | RunResult.mismatch b => RunResult.mismatch ⟨maskA, b⟩
  | RunResult.ok b1 =>
    match update_with_wrapping_add q b1 encoded with
    | RunResult.mismatch b => RunResult.mismatch ⟨maskA, b⟩
    | RunResult.ok b2 => RunResult.ok ⟨maskA, b2⟩

/-- Embedding of `GlweSecretKey::encrypt_zero_glwe`: `encrypt_glwe` without
the final plaintext addition. -/
def encrypt_zero_glwe (q : Nat) (key : List (List Bool))
    (noiseE : List Int) (maskA : List (List Int)) : RunResult Glwe :=
  match update_with_wrapping_add_binary_multisum q noiseE maskA key with
  | RunResult.mismatch b => RunResult.mismatch ⟨maskA, b⟩
  | RunResult.ok b1 => RunResult.ok ⟨maskA, b1⟩

/-- Embedding of `GlweSecretKey::decrypt_glwe`: first the check that the
output plaintext count equals the ciphertext polynomial size (before any
mutation), then the body is copied into the output and the binary multisum
of masks and key is subtracted.  There is no check of the key width
against the mask count. -/
def decrypt_glwe (q : Nat) (key : List (List Bool)) (encoded : List Int)
    (ct : Glwe) : RunResult (List Int) :=
  if encoded.length = ct.body.length then
    update_with_wrapping_sub_binary_multisum q ct.body ct.mask key
  else RunResult.mismatch encoded

/-- A GLWE ciphertext list: the stored polynomial size and GLWE dimension
(the source keeps both in the `GlweList` struct) plus the ciphertexts. -/
structure GlweList where
  polySize : Nat
  glweDim : Nat
  cts : List Glwe
deriving DecidableEq

/-- Per-ciphertext loop of `encrypt_glwe_list`: zips the ciphertexts with
the plaintext sublists and the per-ciphertext random draws; a dimension
panic stops the loop with the earlier ciphertexts already overwritten and
the later ones untouched. -/
def encrypt_glwe_list_loop (q : Nat) (key : List (List Bool)) :
    List Glwe → List (List Int) → List (List Int × List (List Int)) →
      RunResult (List Glwe)
  | [], _, _ => RunResult.ok []
  | c :: cs, [], _ => RunResult.ok (c :: cs)
  | c :: cs, _, [] => RunResult.ok (c :: cs)
  | _ :: cs, ch :: chs, r :: rs =>
    match encrypt_glwe q key ch r.1 r.2 with
    | RunResult.mismatch s => RunResult.mismatch (s :: cs)
    | RunResult.ok e =>
      match encrypt_glwe_list_loop q key cs chs rs with
      | RunResult.ok es => RunResult.ok (e :: es)
      | RunResult.mismatch ss => RunResult.mismatch (e :: ss)

/-- The plaintext sublists of length `n` fed to the `i`-th ciphertext
(`sublist_iter(PlaintextCount(n))`). -/
def sublists (n : Nat) (m : List Int) (count : Nat) : List (List Int) :=
  (List.range count).map (fun i => (m.drop (i * n)).take n)

/-- Embedding of `GlweSecretKey::encrypt_glwe_list`: first the check that
the plaintext count equals `m * N`, then the check that the list's GLWE
dimension equals the key width — both before any output mutation — then
the per-ciphertext encryption loop. -/
def encrypt_glwe_list (q : Nat) (key : List (List Bool)) (L : GlweList)
    (encoded : List Int) (rands : List (List Int × List (List Int))) :
    RunResult (List Glwe) :=
  if L.cts.length * L.polySize = encoded.length then
    if L.glweDim = key.length then
      encrypt_glwe_list_loop q key L.cts
        (sublists L.polySize encoded L.cts.length) rands
    else RunResult.mismatch L.cts
  else RunResult.mismatch L.cts

/-- Per-ciphertext loop of `decrypt_glwe_list`: decrypts each ciphertext
into its output sublist; the decrypted sublists are concatenated. -/
def decrypt_glwe_list_loop (q : Nat) (key : List (List Bool)) :
    List Glwe → List (List Int) → RunResult (List (List Int))
  | [], _ => RunResult.ok []
  | _ :: _, [] => RunResult.ok []
  | c :: cs, ch :: chs =>
    match decrypt_glwe q key ch c with
    | RunResult.mismatch s => RunResult.mismatch (s :: chs)
    | RunResult.ok e =>
      match decrypt_glwe_list_loop q key cs chs with
      | RunResult.ok es => RunResult.ok (e :: es)
      | RunResult.mismatch ss => RunResult.mismatch (e :: ss)

/-- Embedding of `GlweSecretKey::decrypt_glwe_list`: first the check that
the output plaintext count equals `m * N`, then the check that the list's
GLWE dimension equals the key width — both before any output mutation —
then the per-ciphertext decryption loop. -/
def decrypt_glwe_list (q : Nat) (key : List (List Bool)) (encoded : List Int)
    (L : GlweList) : RunResult (List (List Int)) :=
  if L.cts.length * L.polySize = encoded.length then
    if L.glweDim = key.length then
      decrypt_glwe_list_loop q key L.cts
        (sublists L.polySize encoded L.cts.length)
    else RunResult.mismatch (sublists L.polySize encoded L.cts.length)
  else RunResult.mismatch (sublists L.polySize encoded L.cts.length)

/-! ### GGSW encryption

The GGSW container type itself (`crypto/ggsw.rs`) is not among the
provided sources; only `encrypt_constant_ggsw` is.  Following the
specification, a GGSW ciphertext for parameters `(N, k+1, ℓ, B)` is a list
of ℓ level matrices (level 0 first), each a list of `k+1` GLWE rows, and
`decomposition_level()` of the matrix yielded by `level_matrix_iter` is
its 0-based position. -/

/-- Modelled from the spec: `GlweCiphertext::into_polynomial_list` of a
GGSW row — the `k+1` polynomials of the row, masks first, body last. -/
def glwePolyList (g : Glwe) : List (List Int) := g.mask ++ [g.body]

/-- Write `f` of the current polynomial back at index `i` of a polynomial
list (`get_mut_polynomial(i)` followed by a mutation). -/
def setfL (l : List (List Int)) (i : Nat) (f : List Int → List Int) :
    List (List Int) :=
  l.set i (f (l.getD i []))

/-- Body of the diagonal-injection loop of `encrypt_constant_ggsw` for row
`r`: wrapping-add `delta` to the constant coefficient of polynomial `r` of
the row (an index `r < k` addresses mask `r`, index `k` the body, matching
`get_mut_polynomial(r)` on the mask-then-body polynomial list). -/
def inject_row (q : Nat) (delta : Int) (r : Nat) (row : Glwe) : Glwe :=
  if r < row.mask.length then
    { mask := setfL row.mask r (fun p => setf p 0 (fun e => wadd q e delta))
      body := row.body }
  else
    { mask := row.mask, body := setf row.body 0 (fun e => wadd q e delta) }

/-- Diagonal injection over the enumerated rows of one level matrix
(`matrix.row_iter_mut().enumerate()`). -/
def inject_matrix (q : Nat) (delta : Int) (rows : List Glwe) : List Glwe :=
  (List.range rows.length).map (fun r => inject_row q delta r (rows.getD r ⟨[], []⟩))

/-- Diagonal injection over the level matrices: level matrix `li` receives
`delta = mu * 2^(BITS - B*(li+1))` (wrapping) on the constant coefficient
of every diagonal polynomial. -/
def inject_levels (q : Nat) (mu : Int) (baseLog : Nat)
    (levels : List (List Glwe)) : List (List Glwe) :=
  (List.range levels.length).map (fun li =>
    inject_matrix q (wrap q (mu * (2 : Int) ^ (q - baseLog * (li + 1))))
      (levels.getD li []))

/-- Zero-encryption of the rows of one level matrix, each row consuming its
own gaussian/uniform draws (the per-row loop of `encrypt_zero_glwe_list`). -/
def encrypt_zero_rows (q : Nat) (key : List (List Bool)) :
    List Glwe → List (List Int × List (List Int)) → RunResult (List Glwe)
  | [], _ => RunResult.ok []
  | c :: cs, [] => RunResult.ok (c :: cs)
  | _ :: cs, r :: rs =>
    match encrypt_zero_glwe q key r.1 r.2 with
    | RunResult.mismatch s => RunResult.mismatch (s :: cs)
    | RunResult.ok e =>
      match encrypt_zero_rows q key cs rs with
      | RunResult.ok es => RunResult.ok (e :: es)
      | RunResult.mismatch ss => RunResult.mismatch (e :: ss)

/-- Zero-encryption of every row of every level matrix (the
`encrypt_zero_glwe_list` call of `encrypt_constant_ggsw`, viewing the GGSW
as one GLWE list). -/
def encrypt_zero_levels (q : Nat) (key : List (List Bool)) :
    List (List Glwe) → List (List (List Int × List (List Int))) →
      RunResult (List (List Glwe))
  | [], _ => RunResult.ok []
  | m :: ms, [] => RunResult.ok (m :: ms)
  | m :: ms, r :: rs =>
    match encrypt_zero_rows q key m r with
    | RunResult.mismatch s => RunResult.mismatch (s :: ms)
    | RunResult.ok e =>
      match encrypt_zero_levels q key ms rs with
      | RunResult.ok es => RunResult.ok (e :: es)
      | RunResult.mismatch ss => RunResult.mismatch (e :: ss)

/-- Embedding of `GlweSecretKey::encrypt_constant_ggsw`: the two `ck_dim_eq`
checks (key polynomial size against the GGSW polynomial size, key width
against the GGSW dimension), then a GLWE-encryption-of-zero of every row,
then the diagonal gadget injection per level matrix. -/
def encrypt_constant_ggsw (q : Nat) (keyPolySize : Nat)
    (key : List (List Bool)) (N kDim : Nat) (levels : List (List Glwe))
    (mu : Int) (baseLog : Nat)
    (rands : List (List (List Int × List (List Int)))) :
    RunResult (List (List Glwe)) :=
  if keyPolySize = N ∧ key.length = kDim then
    match encrypt_zero_levels q key levels rands with
    | RunResult.mismatch Z => RunResult.mismatch Z
    | RunResult.ok Z => RunResult.ok (inject_levels q mu baseLog Z)
  else RunResult.mismatch levels

/-- Coefficient `c` of polynomial `p` of row `r` of level matrix `li` of a
GGSW ciphertext. -/
def ggswCoef (G : List (List Glwe)) (li r p c : Nat) : Int :=
  ((glwePolyList ((G.getD li []).getD r ⟨[], []⟩)).getD p []).getD c 0

/-! ### Net negacyclic contributions of the accumulating loops -/

/-- The signed contribution of the monomial pair `ij` to output coefficient
`d` in the accumulating binary product: `+poly[i]*bit[j]` when the target
degree lands on `d` in range, `-poly[i]*bit[j]` when it folds onto `d`. -/
def contribTerm (deg : Nat) (poly : List Int) (bin : List Bool) (d : Nat)
    (ij : Nat × Nat) : Int :=
  let t := poly.getD ij.1 0 * b2i (bin.getD ij.2 false)
  if ij.1 + ij.2 ≤ deg then (if ij.1 + ij.2 = d then t else 0)
  else (if (ij.1 + ij.2) % (deg + 1) = d then -t else 0)

/-- The net contribution of a pair list to output coefficient `d`. -/
def contrib (deg : Nat) (poly : List Int) (bin : List Bool) (d : Nat)
    (ps : List (Nat × Nat)) : Int :=
  (ps.map (contribTerm deg poly bin d)).sum

/-- The net contribution of a zipped (polynomial, binary polynomial) list
of size-`N` polynomials to output coefficient `d` of a multisum. -/
def zipContrib (N d : Nat) : List (List Int × List Bool) → Int
  | [] => 0
  | pb :: rest => contrib (N - 1) pb.1 pb.2 d (pairs N N) + zipContrib N d rest

/-- The fold performed by both multisum operations, abstracted over the
single-pair operation. -/
def multisumFold (op : List Int → List Int × List Bool → RunResult (List Int))
    (self : List Int) (l : List (List Int × List Bool)) : RunResult (List Int) :=
  l.foldl
    (fun acc pb =>
      match acc with
      | RunResult.ok s => op s pb
      | RunResult.mismatch s => RunResult.mismatch s)
    (RunResult.ok self)

/-- The value computed by the add-multisum when no size check fires:
successive `rawAddBinMul` accumulations over the zipped pair list. -/
def rawMultisumAdd (q : Nat) : List Int → List (List Int × List Bool) → List Int
  | self, [] => self
  | self, pb :: rest => rawMultisumAdd q (rawAddBinMul q self pb.1 pb.2) rest

/-- The value computed by the sub-multisum when no size check fires. -/
def rawMultisumSub (q : Nat) : List Int → List (List Int × List Bool) → List Int
  | self, [] => self
  | self, pb :: rest => rawMultisumSub q (rawSubBinMul q self pb.1 pb.2) rest

/-! ## Theorems -/

theorem two_pow_pos (q : Nat) : (0 : Int) < (2 : Int) ^ q := by positivity

theorem wrap_nonneg (q : Nat) (x : Int) : 0 ≤ wrap q x :=
  Int.emod_nonneg x (by have := two_pow_pos q; omega)

theorem wrap_lt (q : Nat) (x : Int) : wrap q x < (2 : Int) ^ q :=
  Int.emod_lt_of_pos x (two_pow_pos q)

theorem wrap_eq_self (q : Nat) (x : Int) (h0 : 0 ≤ x) (h1 : x < (2 : Int) ^ q) :
    wrap q x = x :=
  Int.emod_eq_of_lt h0 h1

theorem wrap_wrap (q : Nat) (x : Int) : wrap q (wrap q x) = wrap q x :=
  Int.emod_emod_of_dvd x dvd_rfl

theorem wrap_modeq (q : Nat) (x : Int) : wrap q x ≡ x [ZMOD ((2 : Int) ^ q)] :=
  Int.emod_emod_of_dvd x dvd_rfl

theorem wrap_congr {q : Nat} {a b : Int} (h : a ≡ b [ZMOD ((2 : Int) ^ q)]) :
    wrap q a = wrap q b := h

theorem wrap_add_left (q : Nat) (a b : Int) :
    wrap q (wrap q a + b) = wrap q (a + b) :=
  wrap_congr ((wrap_modeq q a).add_right b)

theorem wrap_add_right (q : Nat) (a b : Int) :
    wrap q (a + wrap q b) = wrap q (a + b) :=
  wrap_congr ((wrap_modeq q b).add_left a)

theorem wrap_sub_left (q : Nat) (a b : Int) :
    wrap q (wrap q a - b) = wrap q (a - b) :=
  wrap_congr ((wrap_modeq q a).sub_right b)

theorem wrap_sub_right (q : Nat) (a b : Int) :
    wrap q (a - wrap q b) = wrap q (a - b) :=
  wrap_congr ((wrap_modeq q b).sub_left a)

theorem wrap_neg_wrap (q : Nat) (x : Int) : wrap q (-(wrap q x)) = wrap q (-x) :=
  wrap_congr (wrap_modeq q x).neg

theorem wneg_wneg (q : Nat) (x : Int) (hx : wrap q x = x) : wneg q (wneg q x) = x := by
  unfold wneg
  rw [wrap_neg_wrap, neg_neg, hx]

theorem reduced_wrap_eq {q : Nat} {l : List Int} (h : Reduced q l) {x : Int}
    (hx : x ∈ l) : wrap q x = x := h x hx

theorem getD_set_self {α : Type} (l : List α) (i : Nat) (x : α) (d : α)
    (h : i < l.length) : (l.set i x).getD i d = x := by
  induction l generalizing i with
  | nil => simp at h
  | cons a t ih =>
    cases i with
    | zero => simp [List.set, List.getD]
    | succ j =>
      simp only [List.set, List.getD] at *
      exact ih j (by simpa using h)

theorem getD_set_other {α : Type} (l : List α) (i j : Nat) (x : α) (d : α)
    (h : i ≠ j) : (l.set i x).getD j d = l.getD j d := by
  induction l generalizing i j with
  | nil => simp [List.set]
  | cons a t ih =>
    cases i with
    | zero =>
      cases j with
      | zero => exact absurd rfl h
      | succ j' => simp [List.set, List.getD]
    | succ i' =>
      cases j with
      | zero => simp [List.set, List.getD]
      | succ j' =>
        simp only [List.set, List.getD] at *
        exact ih i' j' (fun hc => h (by rw [hc]))

theorem length_setf (l : List Int) (i : Nat) (f : Int → Int) :
    (setf l i f).length = l.length := by
  simp [setf]

theorem getD_setf_self (l : List Int) (i : Nat) (f : Int → Int)
    (h : i < l.length) : (setf l i f).getD i 0 = f (l.getD i 0) :=
  getD_set_self l i _ 0 h

theorem getD_setf_other (l : List Int) (i j : Nat) (f : Int → Int)
    (h : i ≠ j) : (setf l i f).getD j 0 = l.getD j 0 :=
  getD_set_other l i j _ 0 h

theorem mem_pairs {n m : Nat} {p : Nat × Nat} :
    p ∈ pairs n m ↔ p.1 < n ∧ p.2 < m := by
  cases p with
  | mk i j =>
    simp only [pairs, List.mem_flatMap, List.mem_map, List.mem_range, Prod.mk.injEq]
    constructor
    · rintro ⟨a, ha, b, hb, h1, h2⟩
      exact ⟨h1 ▸ ha, h2 ▸ hb⟩
    · rintro ⟨h1, h2⟩
      exact ⟨i, h1, j, h2, rfl, rfl⟩

theorem foldl_congr_mem {α β : Type} (f g : α → β → α) (l : List β)
    (h : ∀ a : α, ∀ b ∈ l, f a b = g a b) (init : α) :
    l.foldl f init = l.foldl g init := by
  induction l generalizing init with
  | nil => rfl
  | cons b t ih =>
    simp only [List.foldl]
    rw [h init b (List.mem_cons_self b t)]
    exact ih (fun a b' hb' => h a b' (List.mem_cons_of_mem b hb')) (g init b)

theorem mulStep_eq_spec (q N : Nat) (lhs rhs : List Int) (acc : List Int)
    (ij : Nat × Nat) (hi : ij.1 < N) (hj : ij.2 < N) :
    mulStep q (N - 1) lhs rhs acc ij = mulStepSpec q N lhs rhs acc ij := by
  unfold mulStep mulStepSpec
  by_cases hd : ij.1 + ij.2 < N
  · rw [if_pos (by omega), if_pos hd]
  · rw [if_neg (by omega), if_neg hd]
    have h1 : N - 1 + 1 = N := by omega
    have h2 : (ij.1 + ij.2) % N = ij.1 + ij.2 - N := by
      rw [Nat.mod_eq_sub_mod (by omega)]
      exact Nat.mod_eq_of_lt (by omega)
    rw [h1, h2]

/-! ### Monomial rotation helpers (for C8) -/

theorem length_rot_right (l : List Int) (r : Nat) :
    (rot_right l r).length = l.length := by
  unfold rot_right
  rw [List.length_append, List.length_drop, List.length_take]
  omega

theorem length_neg_first (q r : Nat) (l : List Int) :
    (neg_first q r l).length = l.length := by
  unfold neg_first
  rw [List.length_append, List.length_map, List.length_take, List.length_drop]
  omega

theorem map_wneg_wneg {q : Nat} {l : List Int} (h : Reduced q l) :
    (l.map (wneg q)).map (wneg q) = l := by
  induction l with
  | nil => rfl
  | cons a t ih =>
    simp only [List.map]
    rw [wneg_wneg q a (h a (List.mem_cons_self a t)),
      ih (fun x hx => h x (List.mem_cons_of_mem a hx))]

theorem neg_first_map_comm (q r : Nat) (l : List Int) :
    (neg_first q r l).map (wneg q) = neg_first q r (l.map (wneg q)) := by
  simp [neg_first, List.map_append, List.map_take, List.map_drop]

theorem rot_right_map_comm (q : Nat) (l : List Int) (r : Nat) :
    (rot_right l r).map (wneg q) = rot_right (l.map (wneg q)) r := by
  simp [rot_right, List.map_append, List.map_take, List.map_drop]

theorem reduced_of_sublist_drop {q : Nat} {l : List Int} (h : Reduced q l)
    (k : Nat) : Reduced q (l.drop k) :=
  fun x hx => h x (List.mem_of_mem_drop hx)

/-- Core computation behind the negacyclic monomial identity: rotating right
by `r` and negating the first `r` coefficients is undone by rotating left by
`r` and negating the last `r` coefficients. -/
theorem neg_rot_cancel (q r : Nat) (l : List Int) (hr : r ≤ l.length)
    (hl : Reduced q l) :
    neg_last q r (rot_left (neg_first q r (rot_right l r)) r) = l := by
  have hk : (l.drop (l.length - r)).length = r := by
    rw [List.length_drop]
    omega
  have htk : (l.take (l.length - r)).length = l.length - r := by
    rw [List.length_take]
    omega
  have h1 : neg_first q r (rot_right l r) =
      (l.drop (l.length - r)).map (wneg q) ++ l.take (l.length - r) := by
    unfold neg_first rot_right
    rw [List.take_left' hk, List.drop_left' hk]
  rw [h1]
  have hmk : ((l.drop (l.length - r)).map (wneg q)).length = r := by
    rw [List.length_map]
    exact hk
  have h2 : rot_left ((l.drop (l.length - r)).map (wneg q) ++
      l.take (l.length - r)) r =
      l.take (l.length - r) ++ (l.drop (l.length - r)).map (wneg q) := by
    unfold rot_left
    rw [List.take_left' hmk, List.drop_left' hmk]
  rw [h2]
  have hlen : (l.take (l.length - r) ++
      (l.drop (l.length - r)).map (wneg q)).length = l.length := by
    rw [List.length_append, htk, hmk]
    omega
  unfold neg_last
  rw [hlen]
  rw [List.take_left' htk, List.drop_left' htk]
  rw [map_wneg_wneg (reduced_of_sublist_drop hl (l.length - r))]
  exact List.take_append_drop (l.length - r) l

theorem getD_map_b2i (bin : List Bool) (j : Nat) (h : j < bin.length) :
    (bin.map b2i).getD j 0 = b2i (bin.getD j false) := by
  induction bin generalizing j with
  | nil => simp at h
  | cons a t ih =>
    cases j with
    | zero => simp [List.getD]
    | succ j' =>
      simp only [List.map, List.getD] at *
      exact ih j' (by simpa using h)

theorem addBinMulStep_eq_mulStep_map (q deg : Nat) (poly : List Int)
    (bin : List Bool) (acc : List Int) (ij : Nat × Nat) (hj : ij.2 < bin.length) :
    addBinMulStep q deg poly bin acc ij =
      mulStep q deg poly (bin.map b2i) acc ij := by
  unfold addBinMulStep mulStep
  rw [getD_map_b2i bin ij.2 hj]
  by_cases hd : ij.1 + ij.2 ≤ deg
  · rw [if_pos hd, if_pos hd]
    simp only [setf, wadd, wmul, wrap_add_right]
  · rw [if_neg hd, if_neg hd]
    simp only [setf, wsub, wmul, wrap_sub_right]

/-- C3: schoolbook negacyclic product.  The loop of `fill_with_wrapping_mul`
(zero the output; for each `(i, j)` wrapping-add the wrapping product at
`i + j` when in range, else wrapping-subtract at `(i + j) % N`) agrees with
the specification's phrasing (`d < N`, subtract at `d - N`), and the
concrete scenario S3 over `u8` evaluates to `[28, 71, 45]`. -/
theorem C3_schoolbook_negacyclic_product :
    (∀ (q : Nat) (out lhs rhs : List Int),
        fill_with_wrapping_mul q out lhs rhs =
          fill_with_wrapping_mul_spec q out lhs rhs) ∧
    fill_with_wrapping_mul 8 [0, 0, 0] [4, 5, 0] [7, 9, 0] =
      RunResult.ok [28, 71, 45] := by
  constructor
  · intro q out lhs rhs
    unfold fill_with_wrapping_mul fill_with_wrapping_mul_spec
    by_cases h : out.length = lhs.length ∧ out.length = rhs.length
    · rw [if_pos h, if_pos h]
      congr 1
      apply foldl_congr_mem
      intro a b hb
      have hm := mem_pairs.mp hb
      obtain ⟨h1, h2⟩ := h
      exact mulStep_eq_spec q lhs.length lhs rhs a b hm.1 (by omega)
    · rw [if_neg h, if_neg h]
  · decide

/-- C9: binary kernel agreement.  `fill_with_wrapping_binary_mul(P, B)`
returns exactly what `fill_with_wrapping_mul(P, B_as_torus)` returns, where
`B_as_torus` lifts each boolean coefficient of `B` to the torus words `0`
and `1` (in every case, including the mismatching ones). -/
theorem C9_binary_kernel_agreement :
    ∀ (q : Nat) (out poly : List Int) (bin : List Bool),
      fill_with_wrapping_binary_mul q out poly bin =
        fill_with_wrapping_mul q out poly (bin.map b2i) := by
  intro q out poly bin
  unfold fill_with_wrapping_binary_mul fill_with_wrapping_mul
  rw [List.length_map]
  by_cases h : out.length = poly.length ∧ out.length = bin.length
  · rw [if_pos h, if_pos h]
    unfold update_with_wrapping_add_binary_mul
    rw [if_pos ⟨by rw [List.length_replicate]; exact h.1,
      by rw [List.length_replicate]; exact h.2⟩]
    unfold rawAddBinMul
    congr 1
    apply foldl_congr_mem
    intro a b hb
    have hm := mem_pairs.mp hb
    exact addBinMulStep_eq_mulStep_map q (poly.length - 1) poly bin a b hm.2
  · rw [if_neg h, if_neg h]

/-- C8: negacyclic monomial identity.  For every polynomial of size at least
one whose coefficients are reduced torus words and for every monomial degree
`d` (wrap-around degrees included), multiplying by the monic monomial `X^d`
and then dividing by it restores the polynomial exactly. -/
theorem C8_negacyclic_monomial_identity (q : Nat) (P : List Int) (d : Nat)
    (hN : 1 ≤ P.length) (hP : Reduced q P) :
    update_with_wrapping_unit_monomial_div q
      (update_with_wrapping_monic_monomial_mul q P d) d = P := by
  have hr : d % P.length < P.length := Nat.mod_lt _ hN
  by_cases hc : (d / P.length) % 2 ≠ 0
  · have hA : update_with_wrapping_monic_monomial_mul q P d =
        neg_first q (d % P.length)
          (rot_right (P.map (wneg q)) (d % P.length)) := by
      simp only [update_with_wrapping_monic_monomial_mul]
      rw [if_pos hc]
    have hMlen : (neg_first q (d % P.length)
        (rot_right (P.map (wneg q)) (d % P.length))).length = P.length := by
      rw [length_neg_first, length_rot_right, List.length_map]
    rw [hA]
    simp only [update_with_wrapping_unit_monomial_div]
    rw [hMlen, if_pos hc]
    rw [neg_first_map_comm, rot_right_map_comm, map_wneg_wneg hP]
    exact neg_rot_cancel q (d % P.length) P (le_of_lt hr) hP
  · have hA : update_with_wrapping_monic_monomial_mul q P d =
        neg_first q (d % P.length) (rot_right P (d % P.length)) := by
      simp only [update_with_wrapping_monic_monomial_mul]
      rw [if_neg hc]
    have hMlen : (neg_first q (d % P.length)
        (rot_right P (d % P.length))).length = P.length := by
      rw [length_neg_first, length_rot_right]
    rw [hA]
    simp only [update_with_wrapping_unit_monomial_div]
    rw [hMlen, if_neg hc]
    exact neg_rot_cancel q (d % P.length) P (le_of_lt hr) hP

/-- Witness for C8 at `q = 8`, `P = [1, 2, 3]`, `d = 5` (degree above `N`,
so both the parity flip and the rotation wrap are exercised). -/
theorem C8_negacyclic_monomial_identity_witness :
    1 ≤ ([1, 2, 3] : List Int).length ∧ Reduced 8 [1, 2, 3] ∧
      update_with_wrapping_unit_monomial_div 8
        (update_with_wrapping_monic_monomial_mul 8 [1, 2, 3] 5) 5 = [1, 2, 3] :=
  ⟨by decide, by decide,
    C8_negacyclic_monomial_identity 8 [1, 2, 3] 5 (by decide) (by decide)⟩

/-- Counterexample for C4: at seed `(key, state) = (0, 0)`, the first
`generate_next` of the code refills from counters `8..15` and returns the
byte `8`, while the claimed order (encrypt `C..C+7`, then advance) would
return `0`. -/
theorem C4_refill_order_counterexample :
    generate_next ctrProbe (RandomGenerator.new (some 0) (some 0) (fun _ => 0)) ≠
      generate_next_claimed ctrProbe
        (RandomGenerator.new (some 0) (some 0) (fun _ => 0)) := by
  decide

/-- C4 (amended): on every call with the buffer exhausted, the generator
first advances its counter `C` by 8 (wrapping modulo `2^128`), then
computes the eight AES-128 encryptions of the advanced counter values
`C+8, ..., C+15`, concatenates their 16-byte outputs to refill the buffer,
and returns the first byte of the new buffer (buffered calls unchanged). -/
theorem C4_refill_order_amended :
    ∀ (AES : Nat → Nat → List Nat) (g : RandomGenerator),
      generate_next AES g = generate_next_amended AES g := by
  intro AES g
  unfold generate_next generate_next_amended
  by_cases h : g.generated_idx < 127
  · rw [if_pos h, if_pos h]
  · rw [if_neg h, if_neg h]
    have h8 : List.range 8 = [0, 1, 2, 3, 4, 5, 6, 7] := rfl
    rw [h8]
    simp only [List.map, List.flatten_cons, List.flatten_nil, List.append_nil,
      aes_encrypt_many, Nat.mod_add_mod, Nat.add_zero, List.append_assoc]

/-- C6 evaluated at the failing inputs: a refill with counter
`2^128 - 9` overflows the unchecked `state + 1` increment (the advanced
counter is `2^128 - 1`), and the `u32` GGSW diagonal value for
`mu = 2^31`, `B = 7`, level 0 overflows the unchecked multiply, while a
small counter refills normally — so these arithmetic steps are not
wrapping-safe for every input, contradicting the claim. -/
theorem C6_unchecked_arithmetic_traps :
    refill_messages_checked (2 ^ 128 - 9) = none ∧
    ggsw_delta_checked_u32 7 0 (2 ^ 31) = none ∧
    refill_messages_checked 0 = some [8, 9, 10, 11, 12, 13, 14, 15] := by
  decide

/-- C7: CSPRNG determinism.  For every block cipher and every seed pair
`(key, state)`, two generators constructed from that same pair — whatever
the OS entropy oracle supplies to each — produce byte-for-byte identical
outputs for every prefix length `n`. -/
theorem C7_csprng_determinism :
    ∀ (AES : Nat → Nat → List Nat) (key state : Nat) (e1 e2 : Nat → Nat)
      (n : Nat),
      genBytes AES n (RandomGenerator.new (some key) (some state) e1) =
        genBytes AES n (RandomGenerator.new (some key) (some state) e2) :=
  fun _ _ _ _ _ _ => rfl

/-! ### Pointwise characterization of the accumulating loops -/

theorem getD_mem {α : Type} (l : List α) (d : Nat) (dft : α)
    (h : d < l.length) : l.getD d dft ∈ l := by
  induction l generalizing d with
  | nil => simp at h
  | cons a t ih =>
    cases d with
    | zero => exact List.mem_cons_self a t
    | succ d' =>
      simp only [List.getD]
      exact List.mem_cons_of_mem a (ih d' (by simpa using h))

theorem reduced_setf {q : Nat} {l : List Int} (h : Reduced q l) (i : Nat)
    (f : Int → Int) (hf : ∀ x, wrap q (f x) = f x) : Reduced q (setf l i f) := by
  intro x hx
  rcases List.mem_or_eq_of_mem_set hx with hmem | heq
  · exact h x hmem
  · rw [heq]
    exact hf _

theorem foldl_preserves_length (step : List Int → Nat × Nat → List Int)
    (hstep : ∀ acc p, (step acc p).length = acc.length)
    (ps : List (Nat × Nat)) :
    ∀ acc, (ps.foldl step acc).length = acc.length := by
  induction ps with
  | nil => intro acc; rfl
  | cons p rest ih =>
    intro acc
    rw [List.foldl_cons, ih, hstep]

theorem foldl_preserves_reduced (q : Nat)
    (step : List Int → Nat × Nat → List Int)
    (hstep : ∀ acc p, Reduced q acc → Reduced q (step acc p))
    (ps : List (Nat × Nat)) :
    ∀ acc, Reduced q acc → Reduced q (ps.foldl step acc) := by
  induction ps with
  | nil => intro acc h; exact h
  | cons p rest ih =>
    intro acc h
    rw [List.foldl_cons]
    exact ih _ (hstep acc p h)

theorem addBinMulStep_length (q deg : Nat) (poly : List Int) (bin : List Bool)
    (acc : List Int) (p : Nat × Nat) :
    (addBinMulStep q deg poly bin acc p).length = acc.length := by
  simp only [addBinMulStep]
  by_cases h : p.1 + p.2 ≤ deg
  · rw [if_pos h, length_setf]
  · rw [if_neg h, length_setf]

theorem subBinMulStep_length (q deg : Nat) (poly : List Int) (bin : List Bool)
    (acc : List Int) (p : Nat × Nat) :
    (subBinMulStep q deg poly bin acc p).length = acc.length := by
  simp only [subBinMulStep]
  by_cases h : p.1 + p.2 ≤ deg
  · rw [if_pos h, length_setf]
  · rw [if_neg h, length_setf]

theorem addBinMulStep_reduced (q deg : Nat) (poly : List Int) (bin : List Bool)
    (acc : List Int) (p : Nat × Nat) (h : Reduced q acc) :
    Reduced q (addBinMulStep q deg poly bin acc p) := by
  simp only [addBinMulStep]
  by_cases hc : p.1 + p.2 ≤ deg
  · rw [if_pos hc]
    exact reduced_setf h _ _ (fun x => wrap_wrap q _)
  · rw [if_neg hc]
    exact reduced_setf h _ _ (fun x => wrap_wrap q _)

theorem subBinMulStep_reduced (q deg : Nat) (poly : List Int) (bin : List Bool)
    (acc : List Int) (p : Nat × Nat) (h : Reduced q acc) :
    Reduced q (subBinMulStep q deg poly bin acc p) := by
  simp only [subBinMulStep]
  by_cases hc : p.1 + p.2 ≤ deg
  · rw [if_pos hc]
    exact reduced_setf h _ _ (fun x => wrap_wrap q _)
  · rw [if_neg hc]
    exact reduced_setf h _ _ (fun x => wrap_wrap q _)

theorem foldl_addBinMulStep_char (q deg : Nat) (poly : List Int)
    (bin : List Bool) (ps : List (Nat × Nat)) :
    ∀ acc : List Int, acc.length = deg + 1 → Reduced q acc →
      ∀ d : Nat, d < deg + 1 →
        (ps.foldl (addBinMulStep q deg poly bin) acc).getD d 0 =
          wrap q (acc.getD d 0 + contrib deg poly bin d ps) := by
  induction ps with
  | nil =>
    intro acc hacc hred d hd
    simp only [List.foldl_nil, contrib, List.map_nil, List.sum_nil, add_zero]
    exact (hred _ (getD_mem acc d 0 (by omega))).symm
  | cons p rest ih =>
    intro acc hacc hred d hd
    rw [List.foldl_cons]
    have hlen : (addBinMulStep q deg poly bin acc p).length = deg + 1 := by
      rw [addBinMulStep_length]
      exact hacc
    have hred' : Reduced q (addBinMulStep q deg poly bin acc p) :=
      addBinMulStep_reduced q deg poly bin acc p hred
    rw [ih _ hlen hred' d hd]
    simp only [contrib, List.map_cons, List.sum_cons]
    simp only [addBinMulStep, contribTerm]
    by_cases h1 : p.1 + p.2 ≤ deg
    · rw [if_pos h1, if_pos h1]
      by_cases h2 : p.1 + p.2 = d
      · rw [if_pos h2, h2, getD_setf_self acc d _ (by omega)]
        unfold wadd
        rw [wrap_add_left]
        congr 1
        ring
      · rw [if_neg h2, getD_setf_other acc _ d _ h2]
        congr 1
        ring
    · rw [if_neg h1, if_neg h1]
      by_cases h2 : (p.1 + p.2) % (deg + 1) = d
      · rw [if_pos h2, h2, getD_setf_self acc d _ (by omega)]
        unfold wsub
        rw [wrap_add_left]
        congr 1
        ring
      · rw [if_neg h2, getD_setf_other acc _ d _ h2]
        congr 1
        ring

theorem foldl_subBinMulStep_char (q deg : Nat) (poly : List Int)
    (bin : List Bool) (ps : List (Nat × Nat)) :
    ∀ acc : List Int, acc.length = deg + 1 → Reduced q acc →
      ∀ d : Nat, d < deg + 1 →
        (ps.foldl (subBinMulStep q deg poly bin) acc).getD d 0 =
          wrap q (acc.getD d 0 - contrib deg poly bin d ps) := by
  induction ps with
  | nil =>
    intro acc hacc hred d hd
    simp only [List.foldl_nil, contrib, List.map_nil, List.sum_nil, sub_zero]
    exact (hred _ (getD_mem acc d 0 (by omega))).symm
  | cons p rest ih =>
    intro acc hacc hred d hd
    rw [List.foldl_cons]
    have hlen : (subBinMulStep q deg poly bin acc p).length = deg + 1 := by
      rw [subBinMulStep_length]
      exact hacc
    have hred' : Reduced q (subBinMulStep q deg poly bin acc p) :=
      subBinMulStep_reduced q deg poly bin acc p hred
    rw [ih _ hlen hred' d hd]
    simp only [contrib, List.map_cons, List.sum_cons]
    simp only [subBinMulStep, contribTerm]
    by_cases h1 : p.1 + p.2 ≤ deg
    · rw [if_pos h1, if_pos h1]
      by_cases h2 : p.1 + p.2 = d
      · rw [if_pos h2, h2, getD_setf_self acc d _ (by omega)]
        unfold wsub
        rw [wrap_sub_left]
        congr 1
        ring
      · rw [if_neg h2, getD_setf_other acc _ d _ h2]
        congr 1
        ring
    · rw [if_neg h1, if_neg h1]
      by_cases h2 : (p.1 + p.2) % (deg + 1) = d
      · rw [if_pos h2, h2, getD_setf_self acc d _ (by omega)]
        unfold wadd
        rw [wrap_sub_left]
        congr 1
        ring
      · rw [if_neg h2, getD_setf_other acc _ d _ h2]
        congr 1
        ring

theorem rawAddBinMul_length (q : Nat) (self poly : List Int) (bin : List Bool) :
    (rawAddBinMul q self poly bin).length = self.length :=
  foldl_preserves_length _ (addBinMulStep_length q _ poly bin) _ self

theorem rawSubBinMul_length (q : Nat) (self poly : List Int) (bin : List Bool) :
    (rawSubBinMul q self poly bin).length = self.length :=
  foldl_preserves_length _ (subBinMulStep_length q _ poly bin) _ self

theorem rawAddBinMul_reduced (q : Nat) (self poly : List Int) (bin : List Bool)
    (h : Reduced q self) : Reduced q (rawAddBinMul q self poly bin) :=
  foldl_preserves_reduced q _ (addBinMulStep_reduced q _ poly bin) _ self h

theorem rawSubBinMul_reduced (q : Nat) (self poly : List Int) (bin : List Bool)
    (h : Reduced q self) : Reduced q (rawSubBinMul q self poly bin) :=
  foldl_preserves_reduced q _ (subBinMulStep_reduced q _ poly bin) _ self h

theorem rawAddBinMul_char (q N : Nat) (self poly : List Int) (bin : List Bool)
    (hs : self.length = N) (hp : poly.length = N) (hb : bin.length = N)
    (hred : Reduced q self) (d : Nat) (hd : d < N) :
    (rawAddBinMul q self poly bin).getD d 0 =
      wrap q (self.getD d 0 + contrib (N - 1) poly bin d (pairs N N)) := by
  unfold rawAddBinMul
  rw [hp, hb]
  exact foldl_addBinMulStep_char q (N - 1) poly bin (pairs N N) self
    (by omega) hred d (by omega)

theorem rawSubBinMul_char (q N : Nat) (self poly : List Int) (bin : List Bool)
    (hs : self.length = N) (hp : poly.length = N) (hb : bin.length = N)
    (hred : Reduced q self) (d : Nat) (hd : d < N) :
    (rawSubBinMul q self poly bin).getD d 0 =
      wrap q (self.getD d 0 - contrib (N - 1) poly bin d (pairs N N)) := by
  unfold rawSubBinMul
  rw [hp, hb]
  exact foldl_subBinMulStep_char q (N - 1) poly bin (pairs N N) self
    (by omega) hred d (by omega)

theorem multisumFold_add_char (q N : Nat) (L : List (List Int × List Bool)) :
    ∀ self : List Int, self.length = N → Reduced q self →
      (∀ pb ∈ L, pb.1.length = N ∧ pb.2.length = N) →
      multisumFold (fun s pb => update_with_wrapping_add_binary_mul q s pb.1 pb.2)
          self L = RunResult.ok (rawMultisumAdd q self L) ∧
        (rawMultisumAdd q self L).length = N ∧
        Reduced q (rawMultisumAdd q self L) ∧
        ∀ d, d < N → (rawMultisumAdd q self L).getD d 0 =
          wrap q (self.getD d 0 + zipContrib N d L) := by
  induction L with
  | nil =>
    intro self hlen hred _
    refine ⟨rfl, hlen, hred, ?_⟩
    intro d hd
    simp only [rawMultisumAdd, zipContrib, add_zero]
    exact (hred _ (getD_mem self d 0 (by omega))).symm
  | cons pb rest ih =>
    intro self hlen hred hL
    have hpb := hL pb (List.mem_cons_self pb rest)
    have hok : update_with_wrapping_add_binary_mul q self pb.1 pb.2 =
        RunResult.ok (rawAddBinMul q self pb.1 pb.2) := by
      unfold update_with_wrapping_add_binary_mul
      rw [if_pos ⟨by omega, by omega⟩]
    have hlen1 : (rawAddBinMul q self pb.1 pb.2).length = N := by
      rw [rawAddBinMul_length]
      exact hlen
    have hred1 := rawAddBinMul_reduced q self pb.1 pb.2 hred
    obtain ⟨hfold, hlen2, hred2, hchar2⟩ :=
      ih (rawAddBinMul q self pb.1 pb.2) hlen1 hred1
        (fun x hx => hL x (List.mem_cons_of_mem pb hx))
    refine ⟨?_, ?_, ?_, ?_⟩
    · simp only [multisumFold, List.foldl_cons]
      rw [hok]
      simp only [rawMultisumAdd]
      have h' := hfold
      simp only [multisumFold] at h'
      exact h'
    · simp only [rawMultisumAdd]
      exact hlen2
    · simp only [rawMultisumAdd]
      exact hred2
    · intro d hd
      simp only [rawMultisumAdd, zipContrib]
      rw [hchar2 d hd,
        rawAddBinMul_char q N self pb.1 pb.2 hlen hpb.1 hpb.2 hred d hd,
        wrap_add_left]
      congr 1
      ring

theorem multisumFold_sub_char (q N : Nat) (L : List (List Int × List Bool)) :
    ∀ self : List Int, self.length = N → Reduced q self →
      (∀ pb ∈ L, pb.1.length = N ∧ pb.2.length = N) →
      multisumFold (fun s pb => update_with_wrapping_sub_binary_mul q s pb.1 pb.2)
          self L = RunResult.ok (rawMultisumSub q self L) ∧
        (rawMultisumSub q self L).length = N ∧
        Reduced q (rawMultisumSub q self L) ∧
        ∀ d, d < N → (rawMultisumSub q self L).getD d 0 =
          wrap q (self.getD d 0 - zipContrib N d L) := by
  induction L with
  | nil =>
    intro self hlen hred _
    refine ⟨rfl, hlen, hred, ?_⟩
    intro d hd
    simp only [rawMultisumSub, zipContrib, sub_zero]
    exact (hred _ (getD_mem self d 0 (by omega))).symm
  | cons pb rest ih =>
    intro self hlen hred hL
    have hpb := hL pb (List.mem_cons_self pb rest)
    have hok : update_with_wrapping_sub_binary_mul q self pb.1 pb.2 =
        RunResult.ok (rawSubBinMul q self pb.1 pb.2) := by
      unfold update_with_wrapping_sub_binary_mul
      rw [if_pos ⟨by omega, by omega⟩]
    have hlen1 : (rawSubBinMul q self pb.1 pb.2).length = N := by
      rw [rawSubBinMul_length]
      exact hlen
    have hred1 := rawSubBinMul_reduced q self pb.1 pb.2 hred
    obtain ⟨hfold, hlen2, hred2, hchar2⟩ :=
      ih (rawSubBinMul q self pb.1 pb.2) hlen1 hred1
        (fun x hx => hL x (List.mem_cons_of_mem pb hx))
    refine ⟨?_, ?_, ?_, ?_⟩
    · simp only [multisumFold, List.foldl_cons]
      rw [hok]
      simp only [rawMultisumSub]
      have h' := hfold
      simp only [multisumFold] at h'
      exact h'
    · simp only [rawMultisumSub]
      exact hlen2
    · simp only [rawMultisumSub]
      exact hred2
    · intro d hd
      simp only [rawMultisumSub, zipContrib]
      rw [hchar2 d hd,
        rawSubBinMul_char q N self pb.1 pb.2 hlen hpb.1 hpb.2 hred d hd,
        wrap_sub_left]
      congr 1
      ring

theorem add_multisum_eq_fold (q : Nat) (self : List Int)
    (coefList : List (List Int)) (binList : List (List Bool)) :
    update_with_wrapping_add_binary_multisum q self coefList binList =
      multisumFold (fun s pb => update_with_wrapping_add_binary_mul q s pb.1 pb.2)
        self (coefList.zip binList) := rfl

theorem sub_multisum_eq_fold (q : Nat) (self : List Int)
    (coefList : List (List Int)) (binList : List (List Bool)) :
    update_with_wrapping_sub_binary_multisum q self coefList binList =
      multisumFold (fun s pb => update_with_wrapping_sub_binary_mul q s pb.1 pb.2)
        self (coefList.zip binList) := rfl

theorem zip_sizes {N : Nat} {A : List (List Int)} {key : List (List Bool)}
    (hA : ∀ a ∈ A, a.length = N) (hkey : ∀ p ∈ key, p.length = N) :
    ∀ pb ∈ A.zip key, pb.1.length = N ∧ pb.2.length = N := by
  intro pb hpb
  have h := List.of_mem_zip hpb
  exact ⟨hA _ h.1, hkey _ h.2⟩

theorem getD_zipWith (f : Int → Int → Int) :
    ∀ (l1 l2 : List Int) (d : Nat), d < l1.length → d < l2.length →
      (List.zipWith f l1 l2).getD d 0 = f (l1.getD d 0) (l2.getD d 0) := by
  intro l1
  induction l1 with
  | nil => intro l2 d h1 _; simp at h1
  | cons a t ih =>
    intro l2 d h1 h2
    cases l2 with
    | nil => simp at h2
    | cons b t2 =>
      cases d with
      | zero => rfl
      | succ d' =>
        simp only [List.zipWith, List.getD] at *
        exact ih t2 d' (by simpa using h1) (by simpa using h2)

theorem reduced_zipWith_wadd (q : Nat) :
    ∀ (l1 l2 : List Int), Reduced q (List.zipWith (fun a b => wadd q a b) l1 l2) := by
  intro l1
  induction l1 with
  | nil => intro l2 x hx; simp at hx
  | cons a t ih =>
    intro l2 x hx
    cases l2 with
    | nil => simp at hx
    | cons b t2 =>
      simp only [List.zipWith] at hx
      rcases List.mem_cons.mp hx with h | h
      · rw [h]
        exact wrap_wrap q _
      · exact ih t2 x h

theorem getD_replicate_zero (n d : Nat) :
    (List.replicate n (0 : Int)).getD d 0 = 0 := by
  induction n generalizing d with
  | zero => rfl
  | succ n' ih =>
    cases d with
    | zero => rfl
    | succ d' =>
      simp only [List.replicate, List.getD]
      exact ih d'

theorem list_eq_of_getD :
    ∀ (l1 l2 : List Int), l1.length = l2.length →
      (∀ d, d < l1.length → l1.getD d 0 = l2.getD d 0) → l1 = l2 := by
  intro l1
  induction l1 with
  | nil =>
    intro l2 h _
    cases l2 with
    | nil => rfl
    | cons b t2 => simp at h
  | cons a t ih =>
    intro l2 hlen hget
    cases l2 with
    | nil => simp at hlen
    | cons b t2 =>
      have h0 : a = b := hget 0 (by simp)
      have ht : t = t2 := by
        apply ih t2 (by simpa using hlen)
        intro d hd
        have := hget (d + 1) (by simp; omega)
        simpa [List.getD] using this
      rw [h0, ht]

/-- C1: GLWE encrypt/decrypt round trip.  For every binary secret key of
`k` polynomials of size `N`, every plaintext list `M` of length `N`, every
written noise polynomial `E` (reduced torus words) and mask draw, encrypt
followed by decrypt under the same key succeeds and returns exactly
`M + E` coefficient-wise, wrapping; and when `E` is all zeros (the `σ = 0`
case) with `M` reduced, decryption returns `M` exactly. -/
theorem C1_glwe_encrypt_decrypt_roundtrip (q N : Nat)
    (key : List (List Bool)) (M E : List Int) (A : List (List Int))
    (out0 : List Int)
    (hkey : ∀ p ∈ key, p.length = N) (hA : ∀ a ∈ A, a.length = N)
    (hAk : A.length = key.length) (hE : E.length = N) (hEred : Reduced q E)
    (hM : M.length = N) (hout0 : out0.length = N) :
    ∃ ct dec, encrypt_glwe q key M E A = RunResult.ok ct ∧
      decrypt_glwe q key out0 ct = RunResult.ok dec ∧
      (∀ d, d < N → dec.getD d 0 = wrap q (M.getD d 0 + E.getD d 0)) ∧
      (E = List.replicate N 0 → Reduced q M → dec = M) := by
  have hzip := zip_sizes hA hkey
  obtain ⟨hfoldA, hlenA, hredA, hcharA⟩ :=
    multisumFold_add_char q N (A.zip key) E hE hEred hzip
  have hms : update_with_wrapping_add_binary_multisum q E A key =
      RunResult.ok (rawMultisumAdd q E (A.zip key)) := by
    rw [add_multisum_eq_fold]
    exact hfoldA
  have hadd : update_with_wrapping_add q (rawMultisumAdd q E (A.zip key)) M =
      RunResult.ok (List.zipWith (fun a b => wadd q a b)
        (rawMultisumAdd q E (A.zip key)) M) := by
    unfold update_with_wrapping_add
    rw [if_pos (by omega)]
  have henc : encrypt_glwe q key M E A = RunResult.ok
      ⟨A, List.zipWith (fun a b => wadd q a b)
        (rawMultisumAdd q E (A.zip key)) M⟩ := by
    simp only [encrypt_glwe, hms, hadd]
  have hb2len : (List.zipWith (fun a b => wadd q a b)
      (rawMultisumAdd q E (A.zip key)) M).length = N := by
    rw [List.length_zipWith]
    omega
  have hb2red := reduced_zipWith_wadd q (rawMultisumAdd q E (A.zip key)) M
  obtain ⟨hfoldS, hlenS, hredS, hcharS⟩ :=
    multisumFold_sub_char q N (A.zip key)
      (List.zipWith (fun a b => wadd q a b)
        (rawMultisumAdd q E (A.zip key)) M) hb2len hb2red hzip
  have hdec : decrypt_glwe q key out0
      ⟨A, List.zipWith (fun a b => wadd q a b)
        (rawMultisumAdd q E (A.zip key)) M⟩ =
      RunResult.ok (rawMultisumSub q
        (List.zipWith (fun a b => wadd q a b)
          (rawMultisumAdd q E (A.zip key)) M) (A.zip key)) := by
    unfold decrypt_glwe
    rw [if_pos (by simpa [hb2len] using hout0)]
    rw [sub_multisum_eq_fold]
    exact hfoldS
  have hpoint : ∀ d, d < N →
      (rawMultisumSub q (List.zipWith (fun a b => wadd q a b)
        (rawMultisumAdd q E (A.zip key)) M) (A.zip key)).getD d 0 =
      wrap q (M.getD d 0 + E.getD d 0) := by
    intro d hd
    rw [hcharS d hd]
    rw [getD_zipWith _ _ _ d (by omega) (by omega)]
    rw [hcharA d hd]
    unfold wadd
    rw [wrap_add_left, wrap_sub_left]
    congr 1
    ring
  refine ⟨_, _, henc, hdec, hpoint, ?_⟩
  intro hE0 hMred
  apply list_eq_of_getD _ _ (by omega)
  intro d hd
  rw [hpoint d (by omega)]
  rw [hE0, getD_replicate_zero, add_zero]
  exact hMred _ (getD_mem M d 0 (by omega))

theorem multisumFold_add_ok (q N : Nat) (L : List (List Int × List Bool)) :
    ∀ self : List Int, self.length = N →
      (∀ pb ∈ L, pb.1.length = N ∧ pb.2.length = N) →
      multisumFold (fun s pb => update_with_wrapping_add_binary_mul q s pb.1 pb.2)
        self L = RunResult.ok (rawMultisumAdd q self L) := by
  induction L with
  | nil => intro self _ _; rfl
  | cons pb rest ih =>
    intro self hlen hL
    have hpb := hL pb (List.mem_cons_self pb rest)
    have hok : update_with_wrapping_add_binary_mul q self pb.1 pb.2 =
        RunResult.ok (rawAddBinMul q self pb.1 pb.2) := by
      unfold update_with_wrapping_add_binary_mul
      rw [if_pos ⟨by omega, by omega⟩]
    have h' := ih (rawAddBinMul q self pb.1 pb.2)
      (by rw [rawAddBinMul_length]; exact hlen)
      (fun x hx => hL x (List.mem_cons_of_mem pb hx))
    simp only [multisumFold, List.foldl_cons]
    rw [hok]
    simp only [rawMultisumAdd]
    simp only [multisumFold] at h'
    exact h'

theorem multisumFold_sub_ok (q N : Nat) (L : List (List Int × List Bool)) :
    ∀ self : List Int, self.length = N →
      (∀ pb ∈ L, pb.1.length = N ∧ pb.2.length = N) →
      multisumFold (fun s pb => update_with_wrapping_sub_binary_mul q s pb.1 pb.2)
        self L = RunResult.ok (rawMultisumSub q self L) := by
  induction L with
  | nil => intro self _ _; rfl
  | cons pb rest ih =>
    intro self hlen hL
    have hpb := hL pb (List.mem_cons_self pb rest)
    have hok : update_with_wrapping_sub_binary_mul q self pb.1 pb.2 =
        RunResult.ok (rawSubBinMul q self pb.1 pb.2) := by
      unfold update_with_wrapping_sub_binary_mul
      rw [if_pos ⟨by omega, by omega⟩]
    have h' := ih (rawSubBinMul q self pb.1 pb.2)
      (by rw [rawSubBinMul_length]; exact hlen)
      (fun x hx => hL x (List.mem_cons_of_mem pb hx))
    simp only [multisumFold, List.foldl_cons]
    rw [hok]
    simp only [rawMultisumSub]
    simp only [multisumFold] at h'
    exact h'

theorem zip_take_min {α β : Type} :
    ∀ (l1 : List α) (l2 : List β),
      (l1.take (min l1.length l2.length)).zip
        (l2.take (min l1.length l2.length)) = l1.zip l2 := by
  intro l1
  induction l1 with
  | nil => intro l2; simp
  | cons a t ih =>
    intro l2
    cases l2 with
    | nil => simp
    | cons b t2 =>
      have hmin : min (a :: t).length (b :: t2).length =
          min t.length t2.length + 1 := by
        simp only [List.length_cons]
        omega
      rw [hmin, List.take_succ_cons, List.take_succ_cons,
        List.zip_cons_cons, List.zip_cons_cons, ih t2]

/-- C10: multisum list-length truncation.  For size-`N` polynomial lists of
`p` and `b` polynomials, both multisum operations compute exactly what they
compute on the first `min p b` aligned pairs — the extra polynomials of the
longer list are silently ignored — and both return normally, with no
`DimensionMismatch` signaled. -/
theorem C10_multisum_zip_truncation (q N : Nat) (C : List Int)
    (Ps : List (List Int)) (Bs : List (List Bool)) (hC : C.length = N)
    (hPs : ∀ p ∈ Ps, p.length = N) (hBs : ∀ b ∈ Bs, b.length = N) :
    (update_with_wrapping_add_binary_multisum q C Ps Bs =
      update_with_wrapping_add_binary_multisum q C
        (Ps.take (min Ps.length Bs.length))
        (Bs.take (min Ps.length Bs.length))) ∧
    (update_with_wrapping_add_binary_multisum q C Ps Bs).isOk = true ∧
    (update_with_wrapping_sub_binary_multisum q C Ps Bs =
      update_with_wrapping_sub_binary_multisum q C
        (Ps.take (min Ps.length Bs.length))
        (Bs.take (min Ps.length Bs.length))) ∧
    (update_with_wrapping_sub_binary_multisum q C Ps Bs).isOk = true := by
  have hzip := zip_sizes hPs hBs
  refine ⟨?_, ?_, ?_, ?_⟩
  · rw [add_multisum_eq_fold, add_multisum_eq_fold, zip_take_min]
  · rw [add_multisum_eq_fold, multisumFold_add_ok q N _ C hC hzip]
    rfl
  · rw [sub_multisum_eq_fold, sub_multisum_eq_fold, zip_take_min]
  · rw [sub_multisum_eq_fold, multisumFold_sub_ok q N _ C hC hzip]
    rfl

/-- Witness for C10 with `p = 2` polynomials against `b = 1` binary
polynomial, so one polynomial is ignored. -/
theorem C10_multisum_zip_truncation_witness :
    (([250, 250] : List Int).length = 2 ∧
      (∀ p ∈ [[1, 2], [3, 4]], List.length p = 2) ∧
      (∀ b ∈ [[true, false]], List.length b = 2)) ∧
    ((update_with_wrapping_add_binary_multisum 8 [250, 250] [[1, 2], [3, 4]]
        [[true, false]] =
      update_with_wrapping_add_binary_multisum 8 [250, 250]
        ([[1, 2], [3, 4]].take (min 2 1)) ([[true, false]].take (min 2 1))) ∧
    (update_with_wrapping_add_binary_multisum 8 [250, 250] [[1, 2], [3, 4]]
        [[true, false]]).isOk = true ∧
    (update_with_wrapping_sub_binary_multisum 8 [250, 250] [[1, 2], [3, 4]]
        [[true, false]] =
      update_with_wrapping_sub_binary_multisum 8 [250, 250]
        ([[1, 2], [3, 4]].take (min 2 1)) ([[true, false]].take (min 2 1))) ∧
    (update_with_wrapping_sub_binary_multisum 8 [250, 250] [[1, 2], [3, 4]]
        [[true, false]]).isOk = true) :=
  ⟨⟨by decide, by decide, by decide⟩,
    C10_multisum_zip_truncation 8 2 [250, 250] [[1, 2], [3, 4]]
      [[true, false]] (by decide) (by decide) (by decide)⟩

theorem rawMultisumAdd_length (q : Nat) :
    ∀ (L : List (List Int × List Bool)) (self : List Int),
      (rawMultisumAdd q self L).length = self.length := by
  intro L
  induction L with
  | nil => intro self; rfl
  | cons pb rest ih =>
    intro self
    simp only [rawMultisumAdd]
    rw [ih, rawAddBinMul_length]

theorem rawMultisumSub_length (q : Nat) :
    ∀ (L : List (List Int × List Bool)) (self : List Int),
      (rawMultisumSub q self L).length = self.length := by
  intro L
  induction L with
  | nil => intro self; rfl
  | cons pb rest ih =>
    intro self
    simp only [rawMultisumSub]
    rw [ih, rawSubBinMul_length]

theorem getD_append_lt {α : Type} (l1 l2 : List α) (p : Nat) (d : α)
    (h : p < l1.length) : (l1 ++ l2).getD p d = l1.getD p d := by
  induction l1 generalizing p with
  | nil => simp at h
  | cons a t ih =>
    cases p with
    | zero => rfl
    | succ p' =>
      simp only [List.cons_append, List.getD]
      exact ih p' (by simpa using h)

theorem getD_append_len {α : Type} (l1 : List α) (x : α) (l2 : List α)
    (p : Nat) (d : α) (h : p = l1.length) :
    (l1 ++ x :: l2).getD p d = x := by
  induction l1 generalizing p with
  | nil =>
    subst h
    rfl
  | cons a t ih =>
    subst h
    simp only [List.cons_append, List.length_cons, List.getD]
    exact ih t.length rfl

theorem getD_map_lt {α β : Type} (g : α → β) :
    ∀ (l : List α) (i : Nat), i < l.length → ∀ (da : α) (db : β),
      (l.map g).getD i db = g (l.getD i da) := by
  intro l
  induction l with
  | nil => intro i h; simp at h
  | cons a t ih =>
    intro i h da db
    cases i with
    | zero => rfl
    | succ i' =>
      simp only [List.map, List.getD]
      exact ih i' (by simpa using h) da db

theorem getD_range_map {α : Type} (f : Nat → α) (d : α) :
    ∀ (n i : Nat), i < n → ((List.range n).map f).getD i d = f i := by
  intro n
  induction n with
  | zero => intro i h; omega
  | succ n' ih =>
    intro i h
    rw [List.range_succ, List.map_append]
    by_cases hi : i < n'
    · rw [getD_append_lt _ _ i d (by simpa using hi)]
      exact ih i hi
    · have hieq : i = n' := by omega
      simp only [List.map]
      rw [getD_append_len _ _ _ i d
        (by rw [List.length_map, List.length_range]; omega)]
      rw [hieq]

theorem inject_row_coef (q : Nat) (delta : Int) (k N : Nat) (row : Glwe)
    (r p c : Nat) (hmask : row.mask.length = k)
    (hpl : ∀ pl ∈ row.mask, pl.length = N) (hbody : row.body.length = N)
    (hr : r < k + 1) (hp : p < k + 1) (hc : c < N) :
    ((glwePolyList (inject_row q delta r row)).getD p []).getD c 0 =
      if p = r ∧ c = 0 then
        wadd q (((glwePolyList row).getD p []).getD c 0) delta
      else ((glwePolyList row).getD p []).getD c 0 := by
  unfold inject_row glwePolyList
  by_cases hrk : r < row.mask.length
  · rw [if_pos hrk]
    by_cases hpk : p < k
    · rw [getD_append_lt _ _ p _ (by rw [setfL, List.length_set]; omega),
        getD_append_lt _ _ p _ (by omega)]
      unfold setfL
      by_cases hpr : p = r
      · subst hpr
        rw [getD_set_self _ _ _ _ (by omega)]
        by_cases hc0 : c = 0
        · subst hc0
          rw [if_pos ⟨rfl, rfl⟩]
          have hlen0 : 0 < (row.mask.getD p []).length := by
            rw [hpl _ (getD_mem row.mask p [] (by omega))]
            omega
          rw [getD_setf_self _ _ _ hlen0]
        · rw [if_neg (fun hand => hc0 hand.2)]
          rw [getD_setf_other _ _ _ _ (fun h0 => hc0 h0.symm)]
      · rw [getD_set_other _ _ _ _ _ (fun h0 => hpr h0.symm)]
        rw [if_neg (fun hand => hpr hand.1)]
    · have hpl' : p = row.mask.length := by omega
      rw [getD_append_len _ _ _ p _ (by rw [setfL, List.length_set]; omega),
        getD_append_len _ _ _ p _ (by omega)]
      rw [if_neg (by rintro ⟨h1, _⟩; omega)]
  · rw [if_neg hrk]
    have hrk' : r = k := by omega
    by_cases hpk : p < k
    · rw [getD_append_lt _ _ p _ (by show p < row.mask.length; omega),
        getD_append_lt _ _ p _ (by omega)]
      rw [if_neg (by rintro ⟨h1, _⟩; omega)]
    · have hpl' : p = row.mask.length := by omega
      rw [getD_append_len _ _ _ p _ (by show p = row.mask.length; omega),
        getD_append_len _ _ _ p _ (by omega)]
      by_cases hc0 : c = 0
      · subst hc0
        rw [if_pos ⟨by omega, rfl⟩]
        rw [getD_setf_self _ _ _ (by omega)]
      · rw [if_neg (fun hand => hc0 hand.2)]
        rw [getD_setf_other _ _ _ _ (fun h0 => hc0 h0.symm)]

theorem inject_matrix_coef (q : Nat) (delta : Int) (k N : Nat)
    (rows : List Glwe)
    (hshape : ∀ g ∈ rows, g.mask.length = k ∧
      (∀ pl ∈ g.mask, pl.length = N) ∧ g.body.length = N)
    (r p c : Nat) (hr : r < rows.length) (hrk : r < k + 1) (hp : p < k + 1)
    (hc : c < N) :
    ((glwePolyList ((inject_matrix q delta rows).getD r ⟨[], []⟩)).getD p
        []).getD c 0 =
      if p = r ∧ c = 0 then
        wadd q
          (((glwePolyList (rows.getD r ⟨[], []⟩)).getD p []).getD c 0) delta
      else ((glwePolyList (rows.getD r ⟨[], []⟩)).getD p []).getD c 0 := by
  unfold inject_matrix
  rw [getD_range_map _ _ rows.length r hr]
  have hs := hshape _ (getD_mem rows r ⟨[], []⟩ hr)
  exact inject_row_coef q delta k N _ r p c hs.1 hs.2.1 hs.2.2 hrk hp hc

theorem encrypt_zero_rows_ok (q N : Nat) (key : List (List Bool))
    (hkeyN : ∀ p ∈ key, p.length = N) :
    ∀ (cts : List Glwe) (rands : List (List Int × List (List Int))),
      cts.length = rands.length →
      (∀ rr ∈ rands, rr.1.length = N ∧ (∀ a ∈ rr.2, a.length = N)) →
      encrypt_zero_rows q key cts rands =
        RunResult.ok (rands.map (fun rr =>
          ⟨rr.2, rawMultisumAdd q rr.1 (rr.2.zip key)⟩)) := by
  intro cts
  induction cts with
  | nil =>
    intro rands hlen _
    cases rands with
    | nil => rfl
    | cons rr rs => simp at hlen
  | cons c cs ih =>
    intro rands hlen hsizes
    cases rands with
    | nil => simp at hlen
    | cons rr rs =>
      have hrr := hsizes rr (List.mem_cons_self rr rs)
      have hz : encrypt_zero_glwe q key rr.1 rr.2 =
          RunResult.ok ⟨rr.2, rawMultisumAdd q rr.1 (rr.2.zip key)⟩ := by
        have hms : update_with_wrapping_add_binary_multisum q rr.1 rr.2 key =
            RunResult.ok (rawMultisumAdd q rr.1 (rr.2.zip key)) := by
          rw [add_multisum_eq_fold]
          exact multisumFold_add_ok q N _ rr.1 hrr.1 (zip_sizes hrr.2 hkeyN)
        simp only [encrypt_zero_glwe, hms]
      have hrec := ih rs (by simpa using hlen)
        (fun x hx => hsizes x (List.mem_cons_of_mem _ hx))
      simp only [encrypt_zero_rows, hz, hrec, List.map_cons]

theorem encrypt_zero_levels_ok (q N : Nat) (key : List (List Bool))
    (hkeyN : ∀ p ∈ key, p.length = N) :
    ∀ (levels : List (List Glwe))
      (rands : List (List (List Int × List (List Int)))),
      levels.length = rands.length →
      (∀ i, i < levels.length →
        (levels.getD i []).length = (rands.getD i []).length) →
      (∀ rl ∈ rands, ∀ rr ∈ rl, rr.1.length = N ∧
        (∀ a ∈ rr.2, a.length = N)) →
      encrypt_zero_levels q key levels rands =
        RunResult.ok (rands.map (fun rl => rl.map (fun rr =>
          ⟨rr.2, rawMultisumAdd q rr.1 (rr.2.zip key)⟩))) := by
  intro levels
  induction levels with
  | nil =>
    intro rands hlen _ _
    cases rands with
    | nil => rfl
    | cons rl rs => simp at hlen
  | cons m ms ih =>
    intro rands hlen hrows hsizes
    cases rands with
    | nil => simp at hlen
    | cons rl rs =>
      have hm : encrypt_zero_rows q key m rl =
          RunResult.ok (rl.map (fun rr =>
            ⟨rr.2, rawMultisumAdd q rr.1 (rr.2.zip key)⟩)) := by
        apply encrypt_zero_rows_ok q N key hkeyN m rl
        · have := hrows 0 (by simp)
          simpa using this
        · exact hsizes rl (List.mem_cons_self rl rs)
      have hrec := ih rs (by simpa using hlen)
        (fun i hi => by
          have := hrows (i + 1) (by simp; omega)
          simpa [List.getD] using this)
        (fun x hx => hsizes x (List.mem_cons_of_mem _ hx))
      simp only [encrypt_zero_levels, hm, hrec, List.map_cons]

/-- C2: GGSW diagonal gadget injection.  After `encrypt_constant_ggsw` with
plaintext `mu`, base-log `B` and `q`-bit words, with `Z` the underlying
GLWE-zero-encryption of every row: for every level `li`, every row `r` and
every polynomial index `p` of the level matrix, the coefficient equals the
zero-encryption value, except the constant coefficient of the diagonal
polynomial (`p = r`, `c = 0`), which equals the zero-encryption value plus
`delta = mu * 2^(q - B*(li+1))` with wrapping arithmetic. -/
theorem C2_ggsw_diagonal_gadget_injection (q N k baseLog : Nat)
    (key : List (List Bool)) (levels : List (List Glwe)) (mu : Int)
    (rands : List (List (List Int × List (List Int))))
    (hkeyN : ∀ p ∈ key, p.length = N)
    (hlv : levels.length = rands.length)
    (hrows : ∀ i, i < levels.length →
      (levels.getD i []).length = (rands.getD i []).length)
    (hrl : ∀ rl ∈ rands, rl.length = k + 1)
    (hrr : ∀ rl ∈ rands, ∀ rr ∈ rl, rr.1.length = N ∧ rr.2.length = k ∧
      (∀ a ∈ rr.2, a.length = N)) :
    ∃ Z, encrypt_zero_levels q key levels rands = RunResult.ok Z ∧
      encrypt_constant_ggsw q N key N key.length levels mu baseLog rands =
        RunResult.ok (inject_levels q mu baseLog Z) ∧
      Z.length = levels.length ∧
      (∀ li r p c, li < levels.length → r < k + 1 → p < k + 1 → c < N →
        ggswCoef (inject_levels q mu baseLog Z) li r p c =
          if p = r ∧ c = 0 then
            wadd q (ggswCoef Z li r p c)
              (wrap q (mu * (2 : Int) ^ (q - baseLog * (li + 1))))
          else ggswCoef Z li r p c) := by
  have hZ := encrypt_zero_levels_ok q N key hkeyN levels rands hlv hrows
    (fun rl hrli rr hrri =>
      ⟨(hrr rl hrli rr hrri).1, (hrr rl hrli rr hrri).2.2⟩)
  refine ⟨_, hZ, ?_, ?_, ?_⟩
  · unfold encrypt_constant_ggsw
    rw [if_pos ⟨rfl, rfl⟩, hZ]
  · rw [List.length_map]
    omega
  · intro li r p c hli hr hp hc
    have hZlen : (rands.map (fun rl => rl.map (fun rr =>
        (⟨rr.2, rawMultisumAdd q rr.1 (rr.2.zip key)⟩ : Glwe)))).length =
        levels.length := by
      rw [List.length_map]
      omega
    have hrowli : (rands.map (fun rl => rl.map (fun rr =>
        (⟨rr.2, rawMultisumAdd q rr.1 (rr.2.zip key)⟩ : Glwe)))).getD li [] =
        (rands.getD li []).map (fun rr =>
          (⟨rr.2, rawMultisumAdd q rr.1 (rr.2.zip key)⟩ : Glwe)) :=
      getD_map_lt _ rands li (by omega) [] []
    have hmemli : rands.getD li [] ∈ rands := getD_mem rands li [] (by omega)
    have hrowcount : ((rands.getD li []).map (fun rr =>
        (⟨rr.2, rawMultisumAdd q rr.1 (rr.2.zip key)⟩ : Glwe))).length =
        k + 1 := by
      rw [List.length_map]
      exact hrl _ hmemli
    unfold ggswCoef inject_levels
    rw [getD_range_map _ _ _ li (by omega), hrowli]
    rw [inject_matrix_coef q _ k N _ ?_ r p c (by omega) hr hp hc]
    intro g hg
    obtain ⟨rr, hrrmem, hgeq⟩ := List.mem_map.mp hg
    have hszs := hrr _ hmemli rr hrrmem
    refine ⟨?_, ?_, ?_⟩
    · rw [← hgeq]
      exact hszs.2.1
    · intro pl hpl
      rw [← hgeq] at hpl
      exact hszs.2.2 pl hpl
    · rw [← hgeq]
      rw [rawMultisumAdd_length]
      exact hszs.1

/-- Witness for C2 with one level, `k = 0` (a single row per level),
`N = 1`, `B = 3`, `q = 8`, `mu = 5`. -/
theorem C2_ggsw_diagonal_gadget_injection_witness :
    ∃ Z, encrypt_zero_levels 8 [] [[⟨[], [0]⟩]] [[([2], [])]] =
        RunResult.ok Z ∧
      encrypt_constant_ggsw 8 1 [] 1 0 [[⟨[], [0]⟩]] 5 3 [[([2], [])]] =
        RunResult.ok (inject_levels 8 5 3 Z) ∧
      Z.length = 1 ∧
      (∀ li r p c, li < 1 → r < 0 + 1 → p < 0 + 1 → c < 1 →
        ggswCoef (inject_levels 8 5 3 Z) li r p c =
          if p = r ∧ c = 0 then
            wadd 8 (ggswCoef Z li r p c)
              (wrap 8 (5 * (2 : Int) ^ (8 - 3 * (li + 1))))
          else ggswCoef Z li r p c) :=
  C2_ggsw_diagonal_gadget_injection 8 1 0 3 [] [[⟨[], [0]⟩]] 5 [[([2], [])]]
    (by decide) (by decide) (by decide) (by decide) (by decide)

/-- Counterexample for C5: an `encrypt_glwe` call whose secret-key width
(1) differs from the ciphertext mask count (2) completes normally — the
zip of masks and key polynomials silently truncates — where the claim
demands a fail-fast `DimensionMismatch`. -/
theorem C5_dimension_checks_counterexample :
    ([[true]] : List (List Bool)).length ≠ ([[1], [2]] : List (List Int)).length ∧
    (encrypt_glwe 8 [[true]] [5] [0] [[1], [2]]).isOk = true := by
  decide

/-- C5 (amended): the list operations check the plaintext count against
`m * N` and the key width against the list's GLWE dimension, fail-fast
before any output mutation; `decrypt_glwe` checks the output plaintext
length against `N` before mutating; but the single-ciphertext operations
perform no key-width check at all (a mismatched key is silently
zip-truncated and the call succeeds), and `encrypt_glwe` signals the
plaintext-length mismatch only at its final addition, after the body and
the masks have already been overwritten. -/
theorem C5_dimension_checks_amended (q N : Nat) (key : List (List Bool))
    (M E out0 : List Int) (A : List (List Int)) (ct : Glwe) (L : GlweList)
    (encodedL : List Int) (rands : List (List Int × List (List Int)))
    (hkey : ∀ p ∈ key, p.length = N) (hA : ∀ a ∈ A, a.length = N)
    (hE : E.length = N) :
    (M.length = N → (encrypt_glwe q key M E A).isOk = true) ∧
    ((encrypt_zero_glwe q key E A).isOk = true) ∧
    (out0.length = ct.body.length → ct.body.length = N →
      (∀ a ∈ ct.mask, a.length = N) →
      (decrypt_glwe q key out0 ct).isOk = true) ∧
    (M.length ≠ N → encrypt_glwe q key M E A =
      RunResult.mismatch ⟨A, rawMultisumAdd q E (A.zip key)⟩) ∧
    (out0.length ≠ ct.body.length →
      decrypt_glwe q key out0 ct = RunResult.mismatch out0) ∧
    (L.cts.length * L.polySize ≠ encodedL.length →
      encrypt_glwe_list q key L encodedL rands = RunResult.mismatch L.cts) ∧
    (L.cts.length * L.polySize = encodedL.length → L.glweDim ≠ key.length →
      encrypt_glwe_list q key L encodedL rands = RunResult.mismatch L.cts) ∧
    (L.cts.length * L.polySize ≠ encodedL.length →
      decrypt_glwe_list q key encodedL L =
        RunResult.mismatch (sublists L.polySize encodedL L.cts.length)) ∧
    (L.cts.length * L.polySize = encodedL.length → L.glweDim ≠ key.length →
      decrypt_glwe_list q key encodedL L =
        RunResult.mismatch (sublists L.polySize encodedL L.cts.length)) := by
  have hzip := zip_sizes hA hkey
  have hms : update_with_wrapping_add_binary_multisum q E A key =
      RunResult.ok (rawMultisumAdd q E (A.zip key)) := by
    rw [add_multisum_eq_fold]
    exact multisumFold_add_ok q N _ E hE hzip
  have hrawlen : (rawMultisumAdd q E (A.zip key)).length = N := by
    rw [rawMultisumAdd_length]
    exact hE
  refine ⟨?_, ?_, ?_, ?_, ?_, ?_, ?_, ?_, ?_⟩
  · intro hMN
    have hadd : update_with_wrapping_add q (rawMultisumAdd q E (A.zip key)) M =
        RunResult.ok (List.zipWith (fun a b => wadd q a b)
          (rawMultisumAdd q E (A.zip key)) M) := by
      unfold update_with_wrapping_add
      rw [if_pos (by omega)]
    simp only [encrypt_glwe, hms, hadd]
    rfl
  · simp only [encrypt_zero_glwe, hms]
    rfl
  · intro hlen hbody hmask
    unfold decrypt_glwe
    rw [if_pos hlen]
    rw [sub_multisum_eq_fold,
      multisumFold_sub_ok q N _ ct.body hbody (zip_sizes hmask hkey)]
    rfl
  · intro hMN
    have hadd : update_with_wrapping_add q (rawMultisumAdd q E (A.zip key)) M =
        RunResult.mismatch (rawMultisumAdd q E (A.zip key)) := by
      unfold update_with_wrapping_add
      rw [if_neg (by omega)]
    simp only [encrypt_glwe, hms, hadd]
  · intro h
    unfold decrypt_glwe
    rw [if_neg h]
  · intro h
    unfold encrypt_glwe_list
    rw [if_neg h]
  · intro h1 h2
    unfold encrypt_glwe_list
    rw [if_pos h1, if_neg h2]
  · intro h
    unfold decrypt_glwe_list
    rw [if_neg h]
  · intro h1 h2
    unfold decrypt_glwe_list
    rw [if_pos h1, if_neg h2]

/-- Witness for the amended C5: with `N = 1`, a plaintext of length 2 makes
`encrypt_glwe` fail only after filling body and masks; a width-1 key
decrypting a two-mask ciphertext completes normally (no key-width check);
an output buffer of length 2 makes `decrypt_glwe` fail fast; and an empty
ciphertext list with a length-1 plaintext makes `encrypt_glwe_list` fail
fast. -/
theorem C5_dimension_checks_amended_witness :
    (encrypt_glwe 8 [[true]] [5, 6] [0] [[1]] =
      RunResult.mismatch ⟨[[1]], rawMultisumAdd 8 [0] ([[1]].zip [[true]])⟩) ∧
    (([[true]] : List (List Bool)).length ≠
      (Glwe.mk [[1], [2]] [9]).mask.length ∧
      (decrypt_glwe 8 [[true]] [1] ⟨[[1], [2]], [9]⟩).isOk = true) ∧
    decrypt_glwe 8 [[true]] [1, 2] ⟨[[1]], [9]⟩ = RunResult.mismatch [1, 2] ∧
    encrypt_glwe_list 8 [[true]] ⟨1, 0, []⟩ [7] [] = RunResult.mismatch [] := by
  have h := C5_dimension_checks_amended 8 1 [[true]] [5, 6] [0] [1, 2] [[1]]
    ⟨[[1]], [9]⟩ ⟨1, 0, []⟩ [7] [] (by decide) (by decide) (by decide)
  have h2 := C5_dimension_checks_amended 8 1 [[true]] [5] [0] [1] [[1]]
    ⟨[[1], [2]], [9]⟩ ⟨1, 0, []⟩ [7] [] (by decide) (by decide) (by decide)
  exact ⟨h.2.2.2.1 (by decide),
    ⟨by decide, h2.2.2.1 (by decide) (by decide) (by decide)⟩,
    h.2.2.2.2.1 (by decide), h.2.2.2.2.2.1 (by decide)⟩

/-- Witness for C1 at `q = 8`, `N = 2`, a width-1 key, with nonzero noise. -/
theorem C1_glwe_encrypt_decrypt_roundtrip_witness :
    (∀ p ∈ [[true, false]], List.length p = 2) ∧
    (∀ a ∈ [[3, 7]], List.length a = 2) ∧ Reduced 8 [1, 2] ∧
    (∃ ct dec,
      encrypt_glwe 8 [[true, false]] [10, 20] [1, 2] [[3, 7]] =
        RunResult.ok ct ∧
      decrypt_glwe 8 [[true, false]] [0, 0] ct = RunResult.ok dec ∧
      (∀ d, d < 2 → dec.getD d 0 =
        wrap 8 (([10, 20] : List Int).getD d 0 + ([1, 2] : List Int).getD d 0)) ∧
      ([1, 2] = List.replicate 2 (0 : Int) → Reduced 8 [10, 20] →
        dec = [10, 20])) :=
  ⟨by decide, by decide, by decide,
    C1_glwe_encrypt_decrypt_roundtrip 8 2 [[true, false]] [10, 20] [1, 2]
      [[3, 7]] [0, 0] (by decide) (by decide) (by decide) (by decide)
      (by decide) (by decide) (by decide)⟩

end Concrete
